import Mathlib

/-!
# Error analysis of Monte Carlo time series (`errors.c`)

A shallow embedding of the analysis routines of `errors.c`
(`errorcalc`, `blockerr`, `autocorrfunc`, `readdata`) together with the
properties proved about them.

Conventions of the embedding.

* A C `double` is modelled by `Dbl α` over an arbitrary linearly ordered
  field `α` (so the results hold for the reals, and can be evaluated over the
  rationals): `Dbl.fin x` is the finite value `x`, `Dbl.nan` is the value of
  a division by zero or of a square root of a negative number.  Arithmetic on
  finite values is exact; `nan` propagates through arithmetic and makes every
  comparison false, as IEEE NaN does.  (In these routines a zero divisor
  always meets a zero dividend in exact arithmetic, see
  `specCov_of_variance_zero`, so the IEEE value is NaN and not an infinity.)
* `sqrt` of libm is a parameter `rt : α → α` of the routines that call it,
  and `strtod` of libc is a parameter of `readdata`.
* A data array `double d[]` with its length `int n` is a `List α`; the
  element `d[i]` is `d.getD i 0`.
* An `int` that counts rows or elements is a `Nat` or an `Int` (sources and
  arrays have fewer than `2^31` elements), and the windowing parameter `skip`
  is taken non-negative in every result on `readdata`.  The two `int`
  expressions that can overflow on such inputs, `nblocks*(nblocks-1)` in
  `blockerr` and `nmax+skip` in `readdata`, are computed with `wrap32`.
* The source file is the list of its rows, one row for each successful call
  of `fgets`.
-/

namespace Errors

/-- A C `double` under exact arithmetic: a finite value or NaN. -/
inductive Dbl (α : Type) where
  | fin (x : α)
  | nan
deriving DecidableEq, Repr

namespace Dbl

variable {α : Type} [LinearOrderedField α]

/-- Addition of doubles. -/
def add : Dbl α → Dbl α → Dbl α
  | fin x, fin y => fin (x + y)
  | _, _ => nan

/-- Subtraction of doubles. -/
def sub : Dbl α → Dbl α → Dbl α
  | fin x, fin y => fin (x - y)
  | _, _ => nan

/-- Multiplication of doubles. -/
def mul : Dbl α → Dbl α → Dbl α
  | fin x, fin y => fin (x * y)
  | _, _ => nan

/-- Division of doubles: not a number when the divisor is zero. -/
def div : Dbl α → Dbl α → Dbl α
  | fin x, fin y => if y = 0 then nan else fin (x / y)
  | _, _ => nan

instance : Add (Dbl α) := ⟨add⟩
instance : Sub (Dbl α) := ⟨sub⟩
instance : Mul (Dbl α) := ⟨mul⟩
instance : Div (Dbl α) := ⟨div⟩

/-- The comparison `a < b` of doubles: false as soon as one side is NaN. -/
def lt : Dbl α → Dbl α → Bool
  | fin x, fin y => decide (x < y)
  | _, _ => false

/-- The libm function `fabs`. -/
def fabs : Dbl α → Dbl α
  | fin x => fin |x|
  | nan => nan

/-- The libm function `sqrt`, given the root `rt` of the non-negative values. -/
def sqrt (rt : α → α) : Dbl α → Dbl α
  | fin x => if x < 0 then nan else fin (rt x)
  | nan => nan

/-- Conversion of an `int` to `double`. -/
def ofInt (i : Int) : Dbl α := fin (i : α)

/-- Conversion of a non-negative `int` to `double`. -/
def ofNat (n : Nat) : Dbl α := fin (n : α)

/-- The macro `sqr(a) ((a)*(a))`. -/
def sqr (a : Dbl α) : Dbl α := a * a

end Dbl

open Dbl

variable {α : Type} [LinearOrderedField α]

/-- The accumulation loop `acc = 0; for (i=0; i<n; i++) acc += f(i);`:
`forSum f n` is the value of `acc` after the loop. -/
def forSum (f : Nat → Dbl α) : Nat → Dbl α
  | 0 => fin 0
  | k + 1 => forSum f k + f k

/-- The element `d[i]` of the data array, as a double. -/
def elem (d : List α) (i : Nat) : Dbl α := fin (d.getD i 0)

/-- The constant `TINTSTOP`. -/
def TINTSTOP : Nat := 6

/-- The body of the lag loops of `errorcalc` and `autocorrfunc` up to the
normalisation: the value of `fi` after
`fi = ( fi/nc - (av1/nc)*(av2/nc) )/( sig )` at lag `it`.  Both loops run
it for `it < n/2` only, where `nc = n-it` is positive. -/
def lagTerm (d : List α) (n : Nat) (sig : Dbl α) (it : Nat) : Dbl α :=
  let nc := n - it
  let fi := forSum (fun j => elem d j * elem d (j + it)) nc
  let av1 := forSum (fun j => elem d j) nc
  let av2 := forSum (fun j => elem d (j + it)) nc
  (fi / ofNat nc - (av1 / ofNat nc) * (av2 / ofNat nc)) / sig

/-- The lag loop of `errorcalc`,
`for (it=...; it < TINTSTOP*tint && it < n/2; it++) { ...; tint += fi*nc/n; }`,
started in the state `(it, tint)`: the state in which the loop is left. -/
def lagLoop (d : List α) (n : Nat) (sig : Dbl α) (it : Nat) (tint : Dbl α) : Nat × Dbl α :=
  if lt (ofNat it) (ofNat TINTSTOP * tint) && decide (it < n / 2) then
    lagLoop d n sig (it + 1) (tint + lagTerm d n sig it * ofNat (n - it) / ofNat n)
  else (it, tint)
termination_by n / 2 - it
decreasing_by
  simp_wf
  simp only [Bool.and_eq_true, decide_eq_true_eq] at *
  omega

/-- What `errorcalc` leaves behind: the values stored through `avep` and
`sigp`, the value stored through `tintp` (`none` when nothing is stored
there), and whether the message ` ** correlation > N/2*6` was printed. -/
structure ErrorcalcOut (α : Type) where
  avep : Dbl α
  sigp : Dbl α
  tintp : Option (Dbl α)
  warned : Bool
deriving DecidableEq, Repr

/-- The routine `errorcalc(d, n, autocorr, avep, sigp, tintp)`. -/
def errorcalc (rt : α → α) (d : List α) (autocorr : Bool) : ErrorcalcOut α :=
  let n := d.length
  let ave := forSum (fun i => elem d i) n / ofNat n
  let sig := forSum (fun i => sqr (elem d i - ave)) n / ofNat n
  if autocorr then
    let r := lagLoop d n sig 1 (fin (1 / 2))
    { avep := ave
      sigp := sqrt rt (ofNat 2 * fabs r.2 * sig / ofInt ((n : Int) - 1))
      tintp := some r.2
      warned := decide (n / 2 ≤ r.1) }
  else
    { avep := ave
      sigp := sqrt rt (sig / ofInt ((n : Int) - 1))
      tintp := none
      warned := false }

/-- The value of an `int` expression whose mathematical value is `x`, with
the two's-complement wrap-around of a 32-bit `int` (the C standard leaves
the overflow undefined; this is what the usual compilers produce). -/
def wrap32 (x : Int) : Int := (x + 2 ^ 31) % 2 ^ 32 - 2 ^ 31

/-- The first loop of `blockerr`,
`for (iblock=0; iblock<nblocks; iblock++) { blockave[iblock] = 0;
   for (i=0; i<blocksize; i++,id++) blockave[iblock] += d[id];
   blockave[iblock] /= blocksize; }`:
the running index `id` and the array `blockave` after `iblock` rounds. -/
def blockLoop (d : List α) (blocksize : Nat) : Nat → Nat × List (Dbl α)
  | 0 => (0, [])
  | iblock + 1 =>
    let s := blockLoop d blocksize iblock
    (s.1 + blocksize, s.2 ++ [forSum (fun i => elem d (s.1 + i)) blocksize / ofNat blocksize])

/-- What `blockerr` stores through `avep` and `sigp`. -/
structure BlockerrOut (α : Type) where
  avep : Dbl α
  sigp : Dbl α
deriving DecidableEq, Repr

/-- The routine `blockerr(d, n, blocksize, avep, sigp)` for a block length
`blocksize > 0` (`main` calls it for `block != 0` only).  The divisor
`nblocks*(nblocks-1)` is a product of `int`s. -/
def blockerr (rt : α → α) (d : List α) (blocksize : Nat) : BlockerrOut α :=
  let n := d.length
  let nblocks := n / blocksize
  let blockave := (blockLoop d blocksize nblocks).2
  let ave := forSum (fun iblock => blockave.getD iblock nan) nblocks / ofNat nblocks
  let sig := forSum (fun iblock => sqr (blockave.getD iblock nan - ave)) nblocks
  { avep := ave
    sigp := sqrt rt (sig / ofInt (wrap32 ((nblocks : Int) * ((nblocks : Int) - 1)))) }

/-- The fatal errors of the engine, by their names in the error taxonomy.
In the code each is a message on `stderr` followed by `exit(0)`:
`insufficientData` is ` No data to be read`, `invalidColumn c` is
` Not valid column c`, and `malformedRow line expected` is
` Line line: not expected columns`. -/
inductive Failure where
  | insufficientData
  | invalidColumn (c : Int)
  | malformedRow (line : Int) (expected : Int)
deriving DecidableEq, Repr

/-- The blocking branch of the column loop of `main`:
`blockerr(d[i],n,block,&ave,&sig); printf(" %d  %.10g  %.8g\n",col[i],ave,sig);`.
The result is the printed triple; the branch has no `exit`. -/
def mainBlockColumn (rt : α → α) (col : Int) (d : List α) (block : Nat) :
    Except Failure (Int × Dbl α × Dbl α) :=
  let r := blockerr rt d block
  Except.ok (col, r.avep, r.sigp)

/-- The lag loop of `autocorrfunc`,
`for (it=...; it <= maxlag && it < n/2; it++) { ...; printf("%d %g\n",it,fi); }`,
started at lag `it`: the pairs printed. -/
def autocorrLoop (d : List α) (n : Nat) (sig : Dbl α) (maxlag : Int) (it : Nat) :
    List (Nat × Dbl α) :=
  if (it : Int) ≤ maxlag ∧ it < n / 2 then
    (it, lagTerm d n sig it) :: autocorrLoop d n sig maxlag (it + 1)
  else []
termination_by n / 2 - it
decreasing_by
  simp_wf
  omega

/-- The routine `autocorrfunc(d, n, maxlag)`: the `(lag, value)` pairs it
prints, in the order of printing. -/
def autocorrfunc (d : List α) (maxlag : Int) : List (Nat × Dbl α) :=
  let n := d.length
  let ave := forSum (fun i => elem d i) n / ofNat n
  let sig := forSum (fun i => sqr (elem d i - ave)) n / ofNat n
  autocorrLoop d n sig maxlag 0

/-- A row of the source: the characters that one call
`fgets(buf, BUFSIZE, f)` delivers, that is a line of fewer than `BUFSIZE`
characters with its newline.  The source is the list of its rows. -/
abbrev Row := List Char

/-- The call `fgets(buf, BUFSIZE, f)`: whether a row was read, the buffer
and the rest of the source afterwards.  At the end of the source the buffer
keeps its contents. -/
def fgets (buf : Row) : List Row → Bool × Row × List Row
  | [] => (false, buf, [])
  | r :: rest => (true, r, rest)

/-- The counting loop of `readdata`,
`for (i=...; (!nmax || i < nmax+skip); i++) if (fgets(buf,BUFSIZE,f) == NULL) break;`,
started with the counter `i`: the final counter and buffer.  The sum
`nmax+skip` is a sum of `int`s; the counter itself does not overflow on a
source of fewer than `2^31` rows. -/
def countLoop (nmax skip : Int) : List Row → Row → Nat → Nat × Row
  | [], buf, i => (i, buf)
  | r :: rest, buf, i =>
    if nmax = 0 ∨ (i : Int) < wrap32 (nmax + skip) then countLoop nmax skip rest r (i + 1)
    else (i, buf)

/-- The value of `datsize` in `readdata` after `datsize = i - skip`: the
number of rows that the counting loop leaves to be read.  The difference is
one of `int`s; it is the mathematical one for `0 <= skip` (then
`-2^31 < i - skip <= i`), which is the range of the windowing parameter and
the range in which the results on `readdata` are stated. -/
def countRows (nmax skip : Int) (f : List Row) (buf : Row) : Int :=
  ((countLoop nmax skip f buf 0).1 : Int) - skip

/-- The loop of `readdata` over the selectors,
`for (maxcol=i=0; i<ncols; i++) { if (maxcol < col[i]) maxcol = col[i];
   if (col[i] <= 0) { ...; exit(0); } }`,
started with the value `maxcol`. -/
def maxcolLoop : List Int → Int → Except Failure Int
  | [], maxcol => Except.ok maxcol
  | c :: cs, maxcol =>
    if c ≤ 0 then Except.error (Failure.invalidColumn c)
    else maxcolLoop cs (if maxcol < c then c else maxcol)

/-- The loop `for (line=0; line<skip; line++ ) fgets( buf, BUFSIZE, f );`
with `skip` rounds to go: the buffer and the rest of the source afterwards. -/
def skipLoop : Nat → Row → List Row → Row × List Row
  | 0, buf, f => (buf, f)
  | k + 1, buf, f => skipLoop k (fgets buf f).2.1 (fgets buf f).2.2

/-- The loop `for (j=0; j<maxcol; j++) { cdata[j] = strtod(cp, &tp);
   if (tp == cp) {...; exit(0);} cp = tp; }` with `maxcol` rounds to go,
at the position `cp`: the numbers stored in `cdata`, or `none` when a
conversion fails.  The libc function `strtod` is a parameter: `strtod cp` is
`none` when no conversion is performed (`tp == cp`), and the value with the
position behind it otherwise. -/
def parseLoop (strtod : Row → Option (α × Row)) : Nat → Row → Option (List α)
  | 0, _ => some []
  | k + 1, cp =>
    match strtod cp with
    | none => none
    | some (v, tp) =>
      match parseLoop strtod k tp with
      | none => none
      | some vs => some (v :: vs)

/-- The reading loop of `readdata`,
`for (i=0; i<datsize; i++) { line++; fgets( buf, BUFSIZE, f ); ...;
   for (j=0; j<ncols; j++) d[j][i] = cdata[col[j]-1]; }`,
with `datsize - i` rounds to go: for each `i` the values
`d[0][i], ..., d[ncols-1][i]`. -/
def readLoop (strtod : Row → Option (α × Row)) (col : List Int) (maxcol : Int) :
    Nat → Int → Row → List Row → Except Failure (List (List α))
  | 0, _, _, _ => Except.ok []
  | k + 1, line, buf, f =>
    match parseLoop strtod maxcol.toNat (fgets buf f).2.1 with
    | none => Except.error (Failure.malformedRow (line + 1) maxcol)
    | some cdata =>
      match readLoop strtod col maxcol k (line + 1) (fgets buf f).2.1 (fgets buf f).2.2 with
      | Except.error e => Except.error e
      | Except.ok rows => Except.ok ((col.map fun c => cdata.getD (c - 1).toNat 0) :: rows)

/-- The routine `readdata(f, d, col, ncols, skip, nmax)` on a source `f`,
with the line buffer holding `buf` on entry: the fatal error, or the number
`datsize` returned together with the arrays `d[0], ..., d[ncols-1]`.  The
`int` difference `datsize = i - skip` is the mathematical one for
`0 <= skip`, the range of the windowing parameter, in which all results on
`readdata` are stated; a negative `skip` is not covered. -/
def readdata (strtod : Row → Option (α × Row)) (buf : Row) (f : List Row) (col : List Int)
    (skip nmax : Int) : Except Failure (Int × List (List α)) :=
  let c := countLoop nmax skip f buf 0
  let datsize : Int := (c.1 : Int) - skip
  if datsize ≤ 0 then Except.error Failure.insufficientData
  else
    match maxcolLoop col 0 with
    | Except.error e => Except.error e
    | Except.ok maxcol =>
      let s := skipLoop skip.toNat c.2 f
      match readLoop strtod col maxcol datsize.toNat (skip.toNat : Int) s.1 s.2 with
      | Except.error e => Except.error e
      | Except.ok rows =>
        Except.ok (datsize, (List.range col.length).map fun j => rows.map fun r => r.getD j 0)

/-- The lags at which the lag loop of `errorcalc`, started in the state
`(it, tint)`, runs its body: `lagLoop` with the record of its rounds. -/
def lagLoopLags (d : List α) (n : Nat) (sig : Dbl α) (it : Nat) (tint : Dbl α) : List Nat :=
  if lt (ofNat it) (ofNat TINTSTOP * tint) && decide (it < n / 2) then
    it :: lagLoopLags d n sig (it + 1) (tint + lagTerm d n sig it * ofNat (n - it) / ofNat n)
  else []
termination_by n / 2 - it
decreasing_by
  simp_wf
  simp only [Bool.and_eq_true, decide_eq_true_eq] at *
  omega

/-- The lags at which `errorcalc` with `autocorr != 0` runs the body of its
lag loop. -/
def errorcalcLags (d : List α) : List Nat :=
  let n := d.length
  let ave := forSum (fun i => elem d i) n / ofNat n
  let sig := forSum (fun i => sqr (elem d i - ave)) n / ofNat n
  lagLoopLags d n sig 1 (fin (1 / 2))

/-- The indices of `d` that the body of a lag loop reads at lag `it`: in
`for (j=0; j<nc; j++) { fi += d[j]*d[j+it]; av1 += d[j]; av2 += d[j+it]; }`
with `nc = n-it`, the indices `j` and `j+it`. -/
def lagReads (n it : Nat) : List Nat :=
  (List.range (n - it)).flatMap fun j => [j, j + it]

/-- The branch of the column loop of `main` without blocking,
`double ave,sig,tint; errorcalc(d[i],n,autoc,&ave,&sig,&tint);
 printf(" %d  %.10g  %.8g  %g\n",col[i],ave,sig,tint);`:
the four values printed, `tint0` being the indeterminate value that the
local variable `tint` holds before the call. -/
def mainErrorColumn (rt : α → α) (col : Int) (d : List α) (autoc : Bool) (tint0 : Dbl α) :
    Int × Dbl α × Dbl α × Dbl α :=
  let r := errorcalc rt d autoc
  (col, r.avep, r.sigp, r.tintp.getD tint0)

/-! ## Command line tools (`cmdline.c`) -/

/-- The constant `MAX_ARG`. -/
def MAX_ARG : Nat := 200

/-- The static variables of `cmdline.c`: the array `args` (its entries
behind the ones stored are null pointers), the index `argp - args` of the
current element, the current position `ap` (the rest of the current argument
from there on, `none` for `NULL`), `narg` and `argcount`.  The embedding
holds for `argc < MAX_ARG`. -/
structure Cmdl where
  args : List Row
  argp : Nat
  ap : Option Row
  narg : Int
  argcount : Int
deriving DecidableEq, Repr

/-- The routine `cmdl_init(argc, argv)`, called once. -/
def cmdl_init (argv : List Row) : Cmdl :=
  if (argv.length : Int) > 1 then
    { args := argv.take MAX_ARG
      argp := 1
      ap := (argv.take MAX_ARG)[1]?
      narg := (argv.length : Int) - 1
      argcount := argv.length }
  else
    { args := argv.take MAX_ARG
      argp := 0
      ap := none
      narg := 0
      argcount := argv.length }

/-- The routine `cmdl_do_next_item()`. -/
def cmdl_do_next_item (s : Cmdl) : Cmdl :=
  if s.narg > 0 then
    { s with argp := s.argp + 1, narg := s.narg - 1, ap := s.args[s.argp + 1]? }
  else { s with ap := none }

/-- The routine `cmdl_find_next_string()`: the pointer returned and the
state afterwards. -/
def cmdl_find_next_string (s : Cmdl) : Option Row × Cmdl :=
  match s.ap with
  | none => (none, s)
  | some p =>
    let s1 := if p = [] then cmdl_do_next_item s else s
    (s1.ap, s1)

/-- The routine `cmdl_get_string(err)`: the string returned and the state
afterwards, or `none` when it leaves through `cmdl_err`. -/
def cmdl_get_string (s : Cmdl) : Option (Row × Cmdl) :=
  match cmdl_find_next_string s with
  | (none, _) => none
  | (some p, s1) => some (p, cmdl_do_next_item s1)

/-- The routine `cmdl_args_remain()`: the number returned and the state
afterwards. -/
def cmdl_args_remain (s : Cmdl) : Int × Cmdl :=
  match cmdl_find_next_string s with
  | (none, s1) => (0, s1)
  | (some _, s1) => (s1.narg + 1, s1)

/-- The strings returned by `c` successive calls of `cmdl_get_string` and the
state afterwards, or `none` when one of the calls leaves through `cmdl_err`. -/
def getStrings : Nat → Cmdl → Option (List Row × Cmdl)
  | 0, s => some ([], s)
  | c + 1, s =>
    match cmdl_get_string s with
    | none => none
    | some (p, s1) =>
      match getStrings c s1 with
      | none => none
      | some (ps, s2) => some (p :: ps, s2)

/-! ## The quantities of the specification -/

/-- The arithmetic mean of a sequence. -/
def specMean (d : List α) : α := d.sum / (d.length : α)

/-- The biased variance `(1/N) * sum((x - mean)^2 for x in seq)`. -/
def specVariance (d : List α) : α :=
  1 / (d.length : α) * (d.map fun x => (x - specMean d) ^ 2).sum

/-- The lag-`L` autocovariance
`C(L) = (1/(N-L)) * sum_{j=0}^{N-L-1} x[j]*x[j+L] - mean(x[0..N-L-1]) * mean(x[L..N-1])`. -/
def specCov (d : List α) (L : Nat) : α :=
  1 / ((d.length : α) - (L : α)) * (∑ j in Finset.range (d.length - L), d.getD j 0 * d.getD (j + L) 0)
    - specMean (d.take (d.length - L)) * specMean (d.drop L)

/-- The normalised autocorrelation `rho(L) = C(L) / variance`. -/
def specRho (d : List α) (L : Nat) : α := specCov d L / specVariance d

/-- The running value of `tint` once the lags `1, ..., k` have been added:
`0.5` plus the contributions `rho(L) * (N-L)/N`. -/
def specTint (d : List α) (k : Nat) : α :=
  1 / 2 + ∑ i in Finset.range k, specRho d (i + 1) * ((d.length : α) - ((i + 1 : Nat) : α)) / (d.length : α)

/-- The condition under which the lag `k + 1` is added after the lags
`1, ..., k`: `L < STOP_FACTOR * tint` and `L < N/2` for `L = k + 1`. -/
def specContinue (d : List α) (k : Nat) : Prop :=
  ((k + 1 : Nat) : α) < 6 * specTint d k ∧ k + 1 < d.length / 2

/-- The mean of block `k`: the mean of `d[k*block_size .. (k+1)*block_size - 1]`. -/
def specBlockMean (d : List α) (blockSize k : Nat) : α :=
  specMean ((d.drop (k * blockSize)).take blockSize)

/-- The `M = floor(N / block_size)` block means. -/
def specBlocks (d : List α) (blockSize : Nat) : List α :=
  (List.range (d.length / blockSize)).map (specBlockMean d blockSize)

/-- The radicand of the block standard error:
`sum((block_mean - mean)^2) / (M*(M-1))`. -/
def specBlockRadicand (d : List α) (blockSize : Nat) : α :=
  ((specBlocks d blockSize).map fun b => (b - specMean (specBlocks d blockSize)) ^ 2).sum
    / (((d.length / blockSize : Nat) : α) * (((d.length / blockSize : Nat) : α) - 1))

/-- The white space of `isspace`. -/
def isSpace (c : Char) : Bool :=
  c = ' ' || c = '\t' || c = '\n' || c = '\x0b' || c = '\x0c' || c = '\r'

/-- The first whitespace-delimited field of a string. -/
def firstField (s : Row) : Row := (s.dropWhile isSpace).takeWhile fun c => !isSpace c

/-- The string behind its first whitespace-delimited field. -/
def afterField (s : Row) : Row := (s.dropWhile isSpace).dropWhile fun c => !isSpace c

/-- The whitespace-delimited fields of a row: `fieldsAux k s` are the first
`k` of them at most. -/
def fieldsAux : Nat → Row → List Row
  | 0, _ => []
  | k + 1, s => if s.dropWhile isSpace = [] then [] else firstField s :: fieldsAux k (afterField s)

/-- The whitespace-delimited fields of a row (a row of `n` characters has at
most `n` fields). -/
def fields (s : Row) : List Row := fieldsAux s.length s

/-- What the C standard says of `strtod` on a whitespace-delimited field
that is a number: with `value fld = some v` when the field `fld` as a whole
is the decimal representation of `v`, `strtod` skips the white space, converts
the field and stops right behind it. -/
def StrtodSpec (strtod : Row → Option (α × Row)) (value : Row → Option α) : Prop :=
  ∀ s v, value (firstField s) = some v → strtod s = some (v, afterField s)

/-- The largest selector. -/
def specMaxcol (col : List Int) : Int := col.foldl max 0

/-- The value of a one-digit field, used to instantiate `StrtodSpec`. -/
def digitValue : Row → Option ℚ
  | [c] => if c.isDigit then some ((c.toNat - 48 : Nat) : ℚ) else none
  | _ => none

/-- A conversion function that satisfies `StrtodSpec` with `digitValue`: it
converts a one-digit field. -/
def digitStrtod (s : Row) : Option (ℚ × Row) :=
  match digitValue (firstField s) with
  | none => none
  | some v => some (v, afterField s)

/-- The number of rows that the specification has the loader retain:
`min(M, skip + limit) - skip` for `limit > 0` and `M - skip` for `limit == 0`. -/
def specCount (M : Nat) (skip limit : Int) : Int :=
  if 0 < limit then min (M : Int) (skip + limit) - skip else (M : Int) - skip

/-! ## Arithmetic of finite doubles -/

namespace Dbl

theorem fin_add (x y : α) : (fin x + fin y : Dbl α) = fin (x + y) := rfl

theorem fin_sub (x y : α) : (fin x - fin y : Dbl α) = fin (x - y) := rfl

theorem fin_mul (x y : α) : (fin x * fin y : Dbl α) = fin (x * y) := rfl

theorem fin_div (x : α) {y : α} (hy : y ≠ 0) : (fin x / fin y : Dbl α) = fin (x / y) := by
  show div (fin x) (fin y) = _
  simp [div, hy]

theorem fin_div_zero (x : α) : (fin x / fin 0 : Dbl α) = nan := by
  show div (fin x) (fin 0) = _
  simp [div]

theorem sqrt_fin (rt : α → α) {x : α} (hx : 0 ≤ x) : sqrt rt (fin x) = fin (rt x) := by
  simp [sqrt, not_lt.mpr hx]

end Dbl

theorem forSum_fin (g : Nat → α) (k : Nat) :
    forSum (fun i => fin (g i)) k = fin (∑ i in Finset.range k, g i) := by
  induction k with
  | zero => simp [forSum]
  | succ k ih => simp only [forSum, ih, fin_add, Finset.sum_range_succ]

/-! ## Index sums over a list -/

theorem sum_range_getD_map (f : α → α) (l : List α) :
    ∑ i in Finset.range l.length, f (l.getD i 0) = (l.map f).sum := by
  induction l with
  | nil => simp
  | cons a l ih =>
    rw [List.length_cons, Finset.sum_range_succ', List.map_cons, List.sum_cons, add_comm]
    simp only [List.getD_cons_succ, ih]
    rfl

theorem sum_range_getD (l : List α) :
    ∑ i in Finset.range l.length, l.getD i 0 = l.sum := by
  simpa using sum_range_getD_map (fun x => x) l

theorem getD_take_of_lt (l : List α) {i k : Nat} (h : i < k) :
    (l.take k).getD i 0 = l.getD i 0 := by
  induction l generalizing i k with
  | nil => simp
  | cons a l ih =>
    cases k with
    | zero => omega
    | succ k =>
      cases i with
      | zero => rfl
      | succ i => simpa using ih (Nat.lt_of_succ_lt_succ h)

theorem getD_drop_add (l : List α) (L i : Nat) :
    (l.drop L).getD i 0 = l.getD (i + L) 0 := by
  induction l generalizing L with
  | nil => simp
  | cons a l ih =>
    cases L with
    | zero => rfl
    | succ L => simpa [← Nat.add_assoc] using ih L

theorem sum_range_take (l : List α) {k : Nat} (hk : k ≤ l.length) :
    ∑ i in Finset.range k, l.getD i 0 = (l.take k).sum := by
  rw [← sum_range_getD (l.take k), List.length_take, min_eq_left hk]
  exact Finset.sum_congr rfl fun i hi => (getD_take_of_lt l (Finset.mem_range.mp hi)).symm

theorem sum_range_drop (l : List α) (L : Nat) :
    ∑ i in Finset.range (l.length - L), l.getD (i + L) 0 = (l.drop L).sum := by
  rw [← sum_range_getD (l.drop L), List.length_drop]
  exact Finset.sum_congr rfl fun i _ => (getD_drop_add l L i).symm

/-! ## The sums of `errorcalc` -/

theorem specMean_take (d : List α) {k : Nat} (hk : k ≤ d.length) :
    specMean (d.take k) = (∑ j in Finset.range k, d.getD j 0) / (k : α) := by
  rw [specMean, List.length_take, min_eq_left hk, sum_range_take d hk]

theorem specMean_drop (d : List α) (L : Nat) :
    specMean (d.drop L) = (∑ j in Finset.range (d.length - L), d.getD (j + L) 0) / ((d.length - L : Nat) : α) := by
  rw [specMean, List.length_drop, sum_range_drop d L]

theorem ave_eq (d : List α) (hn : d.length ≠ 0) :
    forSum (fun i => elem d i) d.length / ofNat d.length = fin (specMean d) := by
  have h : ((d.length : Nat) : α) ≠ 0 := Nat.cast_ne_zero.mpr hn
  simp only [elem, ofNat, forSum_fin, fin_div _ h, sum_range_getD, specMean]

theorem sig_eq (d : List α) (hn : d.length ≠ 0) :
    forSum (fun i => sqr (elem d i - fin (specMean d))) d.length / ofNat d.length
      = fin (specVariance d) := by
  have h : ((d.length : Nat) : α) ≠ 0 := Nat.cast_ne_zero.mpr hn
  have e : (fun i => sqr (elem d i - fin (specMean d)))
      = fun i => fin ((fun x => (x - specMean d) ^ 2) (d.getD i 0)) := by
    funext i
    simp only [elem, sqr, fin_sub, fin_mul, pow_two]
  rw [e, forSum_fin, ofNat, fin_div _ h, sum_range_getD_map (fun x => (x - specMean d) ^ 2) d,
    specVariance]
  congr 1
  field_simp

theorem lagTerm_eq_div (d : List α) (sig : Dbl α) {it : Nat} (hit : it < d.length) :
    lagTerm d d.length sig it = fin (specCov d it) / sig := by
  have hc : ((d.length - it : Nat) : α) ≠ 0 := Nat.cast_ne_zero.mpr (by omega)
  have hs : ((d.length - it : Nat) : α) = (d.length : α) - (it : α) := Nat.cast_sub hit.le
  simp only [lagTerm, elem, ofNat, fin_mul, forSum_fin, fin_div _ hc, fin_sub]
  rw [specCov, specMean_take d (Nat.sub_le _ _), specMean_drop, ← hs]
  congr 2
  ring

theorem lagTerm_eq (d : List α) {v : α} (hv : v ≠ 0) {it : Nat} (hit : it < d.length) :
    lagTerm d d.length (fin v) it = fin (specCov d it / v) := by
  rw [lagTerm_eq_div d _ hit, fin_div _ hv]

theorem specVariance_nonneg (d : List α) : 0 ≤ specVariance d := by
  unfold specVariance
  apply mul_nonneg
  · positivity
  · apply List.sum_nonneg
    intro x hx
    obtain ⟨y, _, rfl⟩ := List.mem_map.mp hx
    positivity

theorem specTint_succ (d : List α) (k : Nat) :
    specTint d (k + 1)
      = specTint d k + specRho d (k + 1) * ((d.length : α) - ((k + 1 : Nat) : α)) / (d.length : α) := by
  simp only [specTint, Finset.sum_range_succ, add_assoc]

theorem loopCond_eq (d : List α) (k : Nat) (t : α) :
    (lt (ofNat (k + 1)) (ofNat TINTSTOP * fin t) && decide (k + 1 < d.length / 2)) = true
      ↔ (((k + 1 : Nat) : α) < 6 * t ∧ k + 1 < d.length / 2) := by
  simp [lt, ofNat, fin_mul, TINTSTOP]

/-- The lag loop, started after the lags `1, ..., k` with the running value
`specTint d k`, adds the lags up to the first `K` at which the continuation
condition fails. -/
theorem lagLoop_spec (d : List α) (hv : specVariance d ≠ 0) :
    ∀ m k, d.length / 2 - k = m →
      ∃ K, k ≤ K ∧ (∀ j, k ≤ j → j < K → specContinue d j) ∧ ¬ specContinue d K ∧
        lagLoop d d.length (fin (specVariance d)) (k + 1) (fin (specTint d k))
          = (K + 1, fin (specTint d K)) := by
  intro m
  induction m with
  | zero =>
    intro k hk
    have hc : ¬ specContinue d k := fun h => by have := h.2; omega
    refine ⟨k, le_refl k, fun j h1 h2 => absurd h2 (by omega), hc, ?_⟩
    rw [lagLoop, if_neg]
    rw [loopCond_eq]
    exact hc
  | succ m ih =>
    intro k hk
    by_cases hc : specContinue d k
    · obtain ⟨K, hK, hall, hstop, hrun⟩ := ih (k + 1) (by omega)
      refine ⟨K, by omega, ?_, hstop, ?_⟩
      · intro j h1 h2
        rcases Nat.eq_or_lt_of_le h1 with h | h
        · exact h ▸ hc
        · exact hall j h h2
      · have hlt : k + 1 < d.length := by have := hc.2; omega
        have hn : ((d.length : Nat) : α) ≠ 0 := Nat.cast_ne_zero.mpr (by omega)
        rw [lagLoop, if_pos ((loopCond_eq d k _).mpr hc), lagTerm_eq d hv hlt]
        simp only [ofNat, fin_mul, fin_div _ hn, fin_add]
        rw [Nat.cast_sub hlt.le, ← specRho, ← specTint_succ]
        exact hrun
    · refine ⟨k, le_refl k, fun j h1 h2 => absurd h2 (by omega), hc, ?_⟩
      rw [lagLoop, if_neg]
      rw [loopCond_eq]
      exact hc

theorem cast_pred (n : Nat) : (((n : Int) - 1 : Int) : α) = (n : α) - 1 := by
  push_cast
  ring

/-! ## `errorcalc` -/

/-- The run of `errorcalc` with `autocorr != 0` on a sequence of length at
least 2 with non-zero variance: the lags `1, ..., K` are added, `K + 1` being
the first lag at which the continuation condition fails. -/
theorem errorcalc_run (rt : α → α) (d : List α)
    (hn : 2 ≤ d.length) (hv : specVariance d ≠ 0) :
    ∃ K, (∀ k, k < K → specContinue d k) ∧ ¬ specContinue d K ∧
      errorcalc rt d true =
        { avep := fin (specMean d)
          sigp := fin (rt (2 * |specTint d K| * specVariance d / ((d.length : α) - 1)))
          tintp := some (fin (specTint d K))
          warned := decide (d.length / 2 ≤ K + 1) } := by
  obtain ⟨K, -, hall, hstop, hrun⟩ := lagLoop_spec d hv _ 0 rfl
  refine ⟨K, fun k hk => hall k (Nat.zero_le k) hk, hstop, ?_⟩
  have hn0 : d.length ≠ 0 := by omega
  have h1 : (0 : α) < (d.length : α) - 1 := by
    have : (2 : α) ≤ (d.length : α) := by exact_mod_cast hn
    linarith
  have ht : specTint d 0 = 1 / 2 := by simp [specTint]
  rw [ht, Nat.zero_add] at hrun
  simp only [errorcalc]
  rw [ave_eq d hn0, sig_eq d hn0]
  simp only [if_true, hrun, fabs, ofNat, ofInt, fin_mul, cast_pred, fin_div _ h1.ne']
  rw [sqrt_fin]
  · norm_num
  · have := specVariance_nonneg d
    positivity

/-- C1. For a sequence of length at least 2 with non-zero variance,
`errorcalc` with `autocorr != 0` starts `tint` at 0.5, adds the lags
`L = 1, ..., K` where each of them satisfied `L < 6 * tint` (with the value
of `tint` accumulated before it) and `L < n/2`, and `K + 1` is the first lag
that does not; each added lag contributes `rho(L) * (n-L)/n`; the routine
returns the arithmetic mean, the accumulated `tint` and
`sqrt(2 * |tint| * variance / (n-1))`. -/
theorem errorcalc_autocorr_spec (rt : α → α) (d : List α)
    (hn : 2 ≤ d.length) (hv : specVariance d ≠ 0) :
    specTint d 0 = 1 / 2 ∧
    (∀ k, specTint d (k + 1)
      = specTint d k + specRho d (k + 1) * ((d.length : α) - ((k + 1 : Nat) : α)) / (d.length : α)) ∧
    ∃ K, (∀ k, k < K → specContinue d k) ∧ ¬ specContinue d K ∧
      errorcalc rt d true =
        { avep := fin (specMean d)
          sigp := fin (rt (2 * |specTint d K| * specVariance d / ((d.length : α) - 1)))
          tintp := some (fin (specTint d K))
          warned := decide (d.length / 2 ≤ K + 1) } :=
  ⟨by simp [specTint], specTint_succ d, errorcalc_run rt d hn hv⟩

/-- C2. For a sequence of length at least 2, `errorcalc` with `autocorr = 0`
returns the arithmetic mean and `sqrt(variance/(n-1))` with the biased
variance; for `[1,2,3,4,5]` the mean is 3, the variance 2 and the standard
error `sqrt(2/4)`. -/
theorem errorcalc_naive_spec (rt : α → α) (d : List α) :
    (2 ≤ d.length →
      errorcalc rt d false =
        { avep := fin (specMean d)
          sigp := fin (rt (specVariance d / ((d.length : α) - 1)))
          tintp := none
          warned := false }) ∧
    specMean ([1, 2, 3, 4, 5] : List α) = 3 ∧
    specVariance ([1, 2, 3, 4, 5] : List α) = 2 ∧
    errorcalc rt ([1, 2, 3, 4, 5] : List α) false =
      { avep := fin 3, sigp := fin (rt (2 / 4)), tintp := none, warned := false } := by
  have gen : ∀ d : List α, 2 ≤ d.length →
      errorcalc rt d false =
        { avep := fin (specMean d)
          sigp := fin (rt (specVariance d / ((d.length : α) - 1)))
          tintp := none
          warned := false } := by
    intro d hn
    have hn0 : d.length ≠ 0 := by omega
    have h1 : (0 : α) < (d.length : α) - 1 := by
      have : (2 : α) ≤ (d.length : α) := by exact_mod_cast hn
      linarith
    simp only [errorcalc]
    rw [ave_eq d hn0, sig_eq d hn0]
    simp only [ofInt, cast_pred, fin_div _ h1.ne']
    rw [sqrt_fin]
    · simp
    · have := specVariance_nonneg d
      positivity
  have hm : specMean ([1, 2, 3, 4, 5] : List α) = 3 := by
    norm_num [specMean]
  have hvar : specVariance ([1, 2, 3, 4, 5] : List α) = 2 := by
    rw [specVariance, hm]
    norm_num
  refine ⟨gen d, hm, hvar, ?_⟩
  rw [gen _ (by simp), hm, hvar]
  norm_num

/-! ## `blockerr` -/

theorem forSum_congr {f g : Nat → Dbl α} {k : Nat} (h : ∀ i, i < k → f i = g i) :
    forSum f k = forSum g k := by
  induction k with
  | zero => rfl
  | succ k ih =>
    simp only [forSum]
    rw [ih fun i hi => h i (Nat.lt_succ_of_lt hi), h k (Nat.lt_succ_self k)]

theorem blockLoop_fst (d : List α) (bs k : Nat) : (blockLoop d bs k).1 = k * bs := by
  induction k with
  | zero => simp [blockLoop]
  | succ k ih => simp only [blockLoop, ih, Nat.succ_mul]

theorem blockLoop_snd (d : List α) (bs k : Nat) :
    (blockLoop d bs k).2
      = (List.range k).map fun j => forSum (fun i => elem d (j * bs + i)) bs / ofNat bs := by
  induction k with
  | zero => simp [blockLoop]
  | succ k ih => simp only [blockLoop, ih, blockLoop_fst, List.range_succ, List.map_append,
      List.map_cons, List.map_nil]

theorem blockave_eq (d : List α) {bs j : Nat} (hbs : 0 < bs) (hj : (j + 1) * bs ≤ d.length) :
    forSum (fun i => elem d (j * bs + i)) bs / ofNat bs = fin (specBlockMean d bs j) := by
  have hb : ((bs : Nat) : α) ≠ 0 := Nat.cast_ne_zero.mpr hbs.ne'
  have hl : bs ≤ (d.drop (j * bs)).length := by
    rw [List.length_drop, Nat.succ_mul] at *
    omega
  have e : (fun i => elem d (j * bs + i)) = fun i => fin ((d.drop (j * bs)).getD i 0) := by
    funext i
    rw [elem, getD_drop_add, Nat.add_comm]
  rw [e, forSum_fin, ofNat, fin_div _ hb, sum_range_take _ hl, specBlockMean, specMean,
    List.length_take, min_eq_left hl]

theorem blockLoop_blocks (d : List α) {bs : Nat} (hbs : 0 < bs) :
    (blockLoop d bs (d.length / bs)).2 = (specBlocks d bs).map fin := by
  rw [blockLoop_snd, specBlocks, List.map_map]
  apply List.map_congr_left
  intro j hj
  have hj : j < d.length / bs := List.mem_range.mp hj
  have : (j + 1) * bs ≤ d.length :=
    le_trans (Nat.mul_le_mul_right bs hj) (Nat.div_mul_le_self _ _)
  simpa using blockave_eq d hbs this

theorem getD_map_fin (l : List α) {k : Nat} (hk : k < l.length) :
    (l.map fin).getD k nan = fin (l.getD k 0) := by
  induction l generalizing k with
  | nil => simp at hk
  | cons a l ih =>
    cases k with
    | zero => rfl
    | succ k => simpa using ih (Nat.lt_of_succ_lt_succ hk)

theorem specBlocks_length (d : List α) (bs : Nat) : (specBlocks d bs).length = d.length / bs := by
  simp [specBlocks]

/-- The two outputs of `blockerr` when there is at least one block: the mean
of the block means, and the root of the sum of squares over the `int`
product `nblocks*(nblocks-1)`. -/
theorem blockerr_eq (rt : α → α) (d : List α) {bs : Nat} (hbs : 0 < bs) (hM : 1 ≤ d.length / bs) :
    blockerr rt d bs =
      { avep := fin (specMean (specBlocks d bs))
        sigp := sqrt rt
          (fin ((specBlocks d bs).map fun b => (b - specMean (specBlocks d bs)) ^ 2).sum
            / fin (((wrap32 (((d.length / bs : Nat) : Int) * (((d.length / bs : Nat) : Int) - 1)) : Int)) : α)) } := by
  have hlen := specBlocks_length d bs
  have hM0 : (specBlocks d bs).length ≠ 0 := by omega
  have e1 : forSum (fun k => ((specBlocks d bs).map fin).getD k nan) (specBlocks d bs).length
      = forSum (fun k => elem (specBlocks d bs) k) (specBlocks d bs).length :=
    forSum_congr fun i hi => getD_map_fin _ hi
  have e2 : forSum (fun k => sqr (((specBlocks d bs).map fin).getD k nan
        - fin (specMean (specBlocks d bs)))) (specBlocks d bs).length
      = forSum (fun k => fin ((fun x => (x - specMean (specBlocks d bs)) ^ 2)
          ((specBlocks d bs).getD k 0))) (specBlocks d bs).length :=
    forSum_congr fun i hi => by
      rw [getD_map_fin _ hi]
      simp only [sqr, fin_sub, fin_mul, pow_two]
  simp only [blockerr]
  rw [blockLoop_blocks d hbs, ← hlen, e1, ave_eq _ hM0, e2, forSum_fin,
    sum_range_getD_map (fun x => (x - specMean (specBlocks d bs)) ^ 2)]
  rfl

theorem wrap32_of_lt {x : Int} (h0 : 0 ≤ x) (h1 : x < 2 ^ 31) : wrap32 x = x := by
  unfold wrap32
  rw [Int.emod_eq_of_lt (by omega) (by omega)]
  omega

theorem wrap32_prod {M : Nat} (hM : 1 ≤ M) (hfit : M * (M - 1) < 2 ^ 31) :
    wrap32 ((M : Int) * ((M : Int) - 1)) = ((M * (M - 1) : Nat) : Int) := by
  have e : (M : Int) * ((M : Int) - 1) = ((M * (M - 1) : Nat) : Int) := by
    push_cast [Nat.cast_sub hM]
    ring
  rw [e]
  apply wrap32_of_lt
  · positivity
  · exact_mod_cast hfit

theorem cast_prod {M : Nat} (hM : 1 ≤ M) :
    ((((M * (M - 1) : Nat) : Int)) : α) = (M : α) * ((M : α) - 1) := by
  push_cast [Nat.cast_sub hM]
  ring

/-- For at least two blocks and a product `nblocks*(nblocks-1)` that fits
an `int`, `blockerr` returns the mean of the block means and
`sqrt(sum((block_mean - mean)^2) / (M*(M-1)))`. -/
theorem blockerr_small (rt : α → α) (d : List α) {bs : Nat} (hbs : 0 < bs)
    (hM : 2 ≤ d.length / bs) (hfit : (d.length / bs) * (d.length / bs - 1) < 2 ^ 31) :
    blockerr rt d bs =
      { avep := fin (specMean (specBlocks d bs))
        sigp := fin (rt (specBlockRadicand d bs)) } := by
  have h2 : (2 : α) ≤ ((d.length / bs : Nat) : α) := by exact_mod_cast hM
  have hpos : (0 : α) < ((d.length / bs : Nat) : α) * (((d.length / bs : Nat) : α) - 1) := by
    apply mul_pos <;> linarith
  have hw := wrap32_prod (by omega : 1 ≤ d.length / bs) hfit
  have hc := cast_prod (α := α) (by omega : 1 ≤ d.length / bs)
  rw [blockerr_eq rt d hbs (by omega), hw, hc, fin_div _ hpos.ne', sqrt_fin]
  · rfl
  · apply div_nonneg _ hpos.le
    apply List.sum_nonneg
    intro x hx
    obtain ⟨y, _, rfl⟩ := List.mem_map.mp hx
    positivity

theorem sum_sq_eq_zero (m : α) (l : List α) (h : (l.map fun x => (x - m) ^ 2).sum = 0) :
    ∀ x ∈ l, x = m := by
  induction l with
  | nil => simp
  | cons a l ih =>
    have hl : 0 ≤ (l.map fun x => (x - m) ^ 2).sum := by
      apply List.sum_nonneg
      intro x hx
      obtain ⟨y, _, rfl⟩ := List.mem_map.mp hx
      positivity
    have ha : 0 ≤ (a - m) ^ 2 := by positivity
    rw [List.map_cons, List.sum_cons] at h
    have h1 : (a - m) ^ 2 = 0 := by linarith
    have h2 : (l.map fun x => (x - m) ^ 2).sum = 0 := by linarith
    intro x hx
    rcases List.mem_cons.mp hx with rfl | hx
    · exact sub_eq_zero.mp ((pow_eq_zero_iff two_ne_zero).mp h1)
    · exact ih h2 x hx

theorem specBlocks_take (d : List α) (bs : Nat) :
    specBlocks (d.take (d.length / bs * bs)) bs = specBlocks d bs := by
  rcases Nat.eq_zero_or_pos bs with rfl | hbs
  · simp [specBlocks]
  have hle : d.length / bs * bs ≤ d.length := Nat.div_mul_le_self _ _
  have hlen : (d.take (d.length / bs * bs)).length / bs = d.length / bs := by
    rw [List.length_take, min_eq_left hle, Nat.mul_div_cancel _ hbs]
  rw [specBlocks, specBlocks, hlen]
  apply List.map_congr_left
  intro k hk
  have hk : k < d.length / bs := List.mem_range.mp hk
  have h1 : k * bs + bs ≤ d.length / bs * bs := by
    rw [← Nat.succ_mul]
    exact Nat.mul_le_mul_right bs hk
  rw [specBlockMean, specBlockMean, List.take_drop, List.take_take, min_eq_left h1,
    ← List.take_drop]

theorem specBlocks_one (d : List α) : specBlocks d 1 = d := by
  apply List.ext_getElem
  · simp [specBlocks]
  · intro i h1 h2
    simp only [specBlocks, List.getElem_map, List.getElem_range, specBlockMean, Nat.mul_one]
    rw [List.drop_eq_getElem_cons h2]
    simp only [List.take_succ_cons, List.take_zero, specMean, List.sum_cons, List.sum_nil,
      List.length_cons, List.length_nil]
    norm_num

theorem blockerr_one_zeros (rt : α → α) (k : Nat) (hk : 1 ≤ k)
    (hw : wrap32 (((k + 1 : Nat) : Int) * (((k + 1 : Nat) : Int) - 1)) < 0) :
    blockerr rt (1 :: List.replicate k (0 : α)) 1 =
      { avep := fin (1 / ((k : α) + 1)), sigp := nan } := by
  have hlen : (1 :: List.replicate k (0 : α)).length / 1 = k + 1 := by
    simp only [List.length_cons, List.length_replicate, Nat.div_one]
  have hk0 : (0 : α) < (k : α) := by exact_mod_cast hk
  have hm : specMean (1 :: List.replicate k (0 : α)) = 1 / ((k : α) + 1) := by
    simp only [specMean, List.sum_cons, List.sum_replicate, List.length_cons,
      List.length_replicate, smul_zero, add_zero]
    push_cast
    rfl
  have hS0 : 0 ≤ ((1 :: List.replicate k (0 : α)).map
      fun b => (b - 1 / ((k : α) + 1)) ^ 2).sum := by
    apply List.sum_nonneg
    intro x hx
    obtain ⟨y, _, rfl⟩ := List.mem_map.mp hx
    positivity
  have hS1 : ((1 :: List.replicate k (0 : α)).map
      fun b => (b - 1 / ((k : α) + 1)) ^ 2).sum ≠ 0 := by
    intro h
    have h1 := sum_sq_eq_zero _ _ h 1 (List.mem_cons_self _ _)
    have h2 : (k : α) + 1 ≠ 0 := by positivity
    field_simp at h1
    linarith
  have hw2 : ((wrap32 (((k + 1 : Nat) : Int) * (((k + 1 : Nat) : Int) - 1)) : Int) : α) < 0 := by
    exact_mod_cast hw
  rw [blockerr_eq rt _ (by norm_num) (by rw [hlen]; omega), hlen, specBlocks_one, hm,
    fin_div _ hw2.ne]
  simp only [sqrt, if_pos (div_neg_of_pos_of_neg (lt_of_le_of_ne hS0 (Ne.symm hS1)) hw2)]

theorem blockerr_overflow (rt : α → α) :
    blockerr rt (1 :: List.replicate 46341 (0 : α)) 1 =
      { avep := fin (1 / 46342), sigp := nan } := by
  have h := blockerr_one_zeros rt 46341 (by norm_num) (by norm_num [wrap32])
  have e : ((46341 : Nat) : α) + 1 = 46342 := by norm_num
  rw [e] at h
  exact h

/-- C3. For a block length `bs > 0`, at least two blocks, and a number `M` of
blocks whose product `M*(M-1)` fits a 32-bit `int`, `blockerr` returns the
mean of the block means and `sqrt(sum_k (blockmean_k - mean)^2 / (M*(M-1)))`,
and the trailing `n - M*bs` elements do not influence the result; the example
`[1,...,8]` with `bs = 2` gives the block means `[1.5,3.5,5.5,7.5]`, the mean
`4.5` and the error `sqrt(20/12)`.  For `M = 46342` blocks (a one followed by
46341 zeros, `bs = 1`) the product overflows and the error is not a number. -/
theorem blockerr_spec (rt : α → α) (d : List α) (bs : Nat) :
    (0 < bs → 2 ≤ d.length / bs → (d.length / bs) * (d.length / bs - 1) < 2 ^ 31 →
      blockerr rt d bs =
        { avep := fin (specMean (specBlocks d bs))
          sigp := fin (rt (specBlockRadicand d bs)) } ∧
      blockerr rt (d.take (d.length / bs * bs)) bs = blockerr rt d bs) ∧
    specBlocks ([1, 2, 3, 4, 5, 6, 7, 8] : List α) 2 = [3 / 2, 7 / 2, 11 / 2, 15 / 2] ∧
    blockerr rt ([1, 2, 3, 4, 5, 6, 7, 8] : List α) 2 =
      { avep := fin (9 / 2), sigp := fin (rt (20 / 12)) } ∧
    blockerr rt (1 :: List.replicate 46341 (0 : α)) 1 =
      { avep := fin (1 / 46342), sigp := nan } := by
  have hex : specBlocks ([1, 2, 3, 4, 5, 6, 7, 8] : List α) 2 = [3 / 2, 7 / 2, 11 / 2, 15 / 2] := by
    simp [specBlocks, specBlockMean, specMean, List.range_succ]
    norm_num
  refine ⟨?_, hex, ?_, ?_⟩
  · intro hbs hM hfit
    have hle : d.length / bs * bs ≤ d.length := Nat.div_mul_le_self _ _
    have hlen : (d.take (d.length / bs * bs)).length / bs = d.length / bs := by
      rw [List.length_take, min_eq_left hle, Nat.mul_div_cancel _ hbs]
    refine ⟨blockerr_small rt d hbs hM hfit, ?_⟩
    rw [blockerr_small rt d hbs hM hfit,
      blockerr_small rt _ hbs (by rw [hlen]; exact hM) (by rw [hlen]; exact hfit),
      specBlockRadicand, specBlockRadicand, specBlocks_take, hlen]
  · rw [blockerr_small rt _ (by norm_num) (by simp) (by simp), specBlockRadicand, hex]
    norm_num [specMean]
  · exact blockerr_overflow rt

/-- Witness of C3 at the sequence `[1, ..., 8]` with block length 2. -/
theorem blockerr_spec_witness :
    0 < 2 ∧ 2 ≤ ([1, 2, 3, 4, 5, 6, 7, 8] : List ℚ).length / 2 ∧
    ([1, 2, 3, 4, 5, 6, 7, 8] : List ℚ).length / 2
      * (([1, 2, 3, 4, 5, 6, 7, 8] : List ℚ).length / 2 - 1) < 2 ^ 31 ∧
    blockerr (fun x => x) ([1, 2, 3, 4, 5, 6, 7, 8] : List ℚ) 2 =
      { avep := fin (specMean (specBlocks [1, 2, 3, 4, 5, 6, 7, 8] 2))
        sigp := fin (specBlockRadicand [1, 2, 3, 4, 5, 6, 7, 8] 2) } ∧
    blockerr (fun x => x) (([1, 2, 3, 4, 5, 6, 7, 8] : List ℚ).take
        (([1, 2, 3, 4, 5, 6, 7, 8] : List ℚ).length / 2 * 2)) 2
      = blockerr (fun x => x) ([1, 2, 3, 4, 5, 6, 7, 8] : List ℚ) 2 :=
  ⟨by decide, by decide, by norm_num,
    (blockerr_spec (fun x => x) ([1, 2, 3, 4, 5, 6, 7, 8] : List ℚ) 2).1
      (by decide) (by decide) (by norm_num)⟩

theorem wrap32_zero : wrap32 0 = 0 := by
  norm_num [wrap32]

/-- With exactly one block `blockerr` returns the mean of that block and a
standard error that is not a number (`0/0`). -/
theorem blockerr_one_block (rt : α → α) (d : List α) {bs : Nat} (hbs : 0 < bs)
    (hM : d.length / bs = 1) :
    blockerr rt d bs = { avep := fin (specBlockMean d bs 0), sigp := nan } := by
  rw [blockerr_eq rt d hbs (by omega), hM]
  have hb : specBlocks d bs = [specBlockMean d bs 0] := by
    simp [specBlocks, hM, List.range_succ]
  have hm : specMean [specBlockMean d bs 0] = specBlockMean d bs 0 := by
    simp [specMean]
  have hw : wrap32 (((1 : Nat) : Int) * (((1 : Nat) : Int) - 1)) = 0 := by
    norm_num [wrap32]
  rw [hb, hm, hw, Int.cast_zero, fin_div_zero]
  rfl

/-- With no block at all `blockerr` returns two values that are not numbers. -/
theorem blockerr_no_block (rt : α → α) (d : List α) {bs : Nat}
    (hM : d.length / bs = 0) :
    blockerr rt d bs = { avep := nan, sigp := nan } := by
  have hw : wrap32 ((0 : Int) * ((0 : Int) - 1)) = 0 := by
    norm_num [wrap32]
  simp only [blockerr, hM, forSum, ofNat, ofInt, Nat.cast_zero, hw, Int.cast_zero, fin_div_zero]
  rfl

/-- C4 (as the code has it). For a block length `bs > 0` with fewer than two
blocks, the blocking branch of `main` raises no error: it prints the
column with the mean of the single block (not a number when there is no
block) and a standard error that is not a number. -/
theorem blockerr_few_blocks (rt : α → α) (col : Int) (d : List α) (bs : Nat)
    (hbs : 0 < bs) (hM : d.length / bs < 2) :
    mainBlockColumn rt col d bs =
      Except.ok (col, (if d.length / bs = 1 then fin (specBlockMean d bs 0) else nan), nan) := by
  unfold mainBlockColumn
  by_cases h1 : d.length / bs = 1
  · rw [blockerr_one_block rt d hbs h1, if_pos h1]
  · have h0 : d.length / bs = 0 := by
      generalize d.length / bs = M at hM h1
      omega
    rw [blockerr_no_block rt d h0, if_neg h1]

/-- Witness of C4 at the sequence `[1, 2]` with block length 2. -/
theorem blockerr_few_blocks_witness :
    0 < 2 ∧ ([1, 2] : List ℚ).length / 2 < 2 ∧
    mainBlockColumn (fun x => x) 1 ([1, 2] : List ℚ) 2 =
      Except.ok (1, (if ([1, 2] : List ℚ).length / 2 = 1
        then fin (specBlockMean ([1, 2] : List ℚ) 2 0) else nan), nan) :=
  ⟨by decide, by decide,
    blockerr_few_blocks (fun x => x) 1 ([1, 2] : List ℚ) 2 (by decide) (by decide)⟩

/-- Counterexample to C4: for the sequence `[1, 2]` and block length 2 (one
block) no error is raised; the mean `3/2` is printed with a standard error
that is not a number. -/
theorem blockerr_single_block_no_error :
    mainBlockColumn (fun x => x) 1 ([1, 2] : List ℚ) 2 ≠ Except.error Failure.insufficientData ∧
    mainBlockColumn (fun x => x) 1 ([1, 2] : List ℚ) 2 = Except.ok (1, fin (3 / 2), nan) := by
  have h : mainBlockColumn (fun x => x) 1 ([1, 2] : List ℚ) 2 = Except.ok (1, fin (3 / 2), nan) := by
    unfold mainBlockColumn
    rw [blockerr_one_block _ _ (by decide) (by decide)]
    norm_num [specBlockMean, specMean]
  rw [h]
  exact ⟨by simp, rfl⟩

/-! ## `autocorrfunc` -/

/-- The number of lags `it` with `it <= maxlag` and `it < n/2`. -/
theorem autocorrLoop_eq (d : List α) (sig : Dbl α) (maxlag : Int) (hm : 0 ≤ maxlag) :
    ∀ m it, min (maxlag.toNat + 1) (d.length / 2) - it = m →
      autocorrLoop d d.length sig maxlag it
        = (List.range' it m).map fun L => (L, fin (specCov d L) / sig) := by
  intro m
  induction m with
  | zero =>
    intro it h
    rw [autocorrLoop, if_neg]
    · rfl
    · intro hc
      have := hc.1
      have := hc.2
      omega
  | succ m ih =>
    intro it h
    have h1 : (it : Int) ≤ maxlag := by omega
    have h2 : it < d.length / 2 := by omega
    rw [autocorrLoop, if_pos ⟨h1, h2⟩, ih (it + 1) (by omega), lagTerm_eq_div d sig (by omega)]
    rfl

theorem sum_sq_expand (m : α) (l : List α) :
    (l.map fun x => (x - m) ^ 2).sum
      = (l.map fun x => x ^ 2).sum - 2 * m * l.sum + (l.length : α) * m ^ 2 := by
  induction l with
  | nil => simp
  | cons a l ih =>
    simp only [List.map_cons, List.sum_cons, List.length_cons, ih]
    push_cast
    ring

/-- The identity behind lag 0: the mean of the squares minus the square of
the mean is the biased variance. -/
theorem specVariance_eq (d : List α) (hn : d.length ≠ 0) :
    (d.map fun x => x ^ 2).sum / (d.length : α) - (d.sum / (d.length : α)) ^ 2
      = specVariance d := by
  have h : ((d.length : Nat) : α) ≠ 0 := Nat.cast_ne_zero.mpr hn
  rw [specVariance, sum_sq_expand, specMean]
  field_simp
  ring

theorem specCov_zero (d : List α) (hn : d.length ≠ 0) : specCov d 0 = specVariance d := by
  have e : ∑ j in Finset.range d.length, d.getD j 0 * d.getD (j + 0) 0
      = (d.map fun x => x ^ 2).sum := by
    rw [← sum_range_getD_map (fun x => x ^ 2) d]
    exact Finset.sum_congr rfl fun i _ => by rw [Nat.add_zero, pow_two]
  rw [← specVariance_eq d hn, specCov, Nat.sub_zero, e, List.take_length, List.drop_zero, specMean]
  simp only [Nat.cast_zero, sub_zero]
  ring

theorem specVariance_ne_zero (d : List α) (h : ∃ x ∈ d, ∃ y ∈ d, x ≠ y) :
    specVariance d ≠ 0 := by
  obtain ⟨x, hx, y, hy, hxy⟩ := h
  intro h0
  have hn : ((d.length : Nat) : α) ≠ 0 :=
    Nat.cast_ne_zero.mpr (List.length_pos_of_mem hx).ne'
  have hs : (d.map fun x => (x - specMean d) ^ 2).sum = 0 := by
    rw [specVariance] at h0
    rcases mul_eq_zero.mp h0 with h1 | h1
    · exact absurd h1 (one_div_ne_zero hn)
    · exact h1
  have hall := sum_sq_eq_zero _ _ hs
  exact hxy ((hall x hx).trans (hall y hy).symm)

theorem autocorrfunc_eq (d : List α) (maxlag : Int) (hn : 2 ≤ d.length) (hm : 0 ≤ maxlag) :
    autocorrfunc d maxlag
      = (List.range (min maxlag.toNat (d.length / 2 - 1) + 1)).map
          fun L => (L, fin (specCov d L) / fin (specVariance d)) := by
  have hn0 : d.length ≠ 0 := by omega
  have hb : min (maxlag.toNat + 1) (d.length / 2) - 0 = min maxlag.toNat (d.length / 2 - 1) + 1 := by
    omega
  simp only [autocorrfunc]
  rw [ave_eq d hn0, sig_eq d hn0, autocorrLoop_eq d _ maxlag hm _ 0 hb, List.range_eq_range']

/-- C7. For a sequence of length at least 2 and `maxlag >= 0`, `autocorrfunc`
prints exactly the pairs `(L, rho(L))` for `L = 0, ..., min(maxlag, n/2 - 1)`
in increasing order, where `rho(L)` is the lag-`L` autocovariance divided by
the biased variance of the whole sequence (not a number when that variance
is zero), the same term that the lag loop of `errorcalc` accumulates. -/
theorem autocorrfunc_spec (d : List α) (maxlag : Int) (hn : 2 ≤ d.length) (hm : 0 ≤ maxlag) :
    autocorrfunc d maxlag
      = (List.range (min maxlag.toNat (d.length / 2 - 1) + 1)).map
          (fun L => (L, fin (specCov d L) / fin (specVariance d))) ∧
    (specVariance d ≠ 0 →
      autocorrfunc d maxlag
        = (List.range (min maxlag.toNat (d.length / 2 - 1) + 1)).map
            (fun L => (L, fin (specRho d L)))) ∧
    (∀ L, L < d.length →
      lagTerm d d.length (fin (specVariance d)) L = fin (specCov d L) / fin (specVariance d)) := by
  refine ⟨autocorrfunc_eq d maxlag hn hm, ?_, fun L hL => lagTerm_eq_div d _ hL⟩
  intro hv
  rw [autocorrfunc_eq d maxlag hn hm]
  apply List.map_congr_left
  intro L _
  rw [fin_div _ hv, specRho]

/-- Witness of C7 at the sequence `[1, 2, 4, 8]` with `maxlag = 3`. -/
theorem autocorrfunc_spec_witness :
    2 ≤ ([1, 2, 4, 8] : List ℚ).length ∧ (0 : Int) ≤ 3 ∧
    (autocorrfunc ([1, 2, 4, 8] : List ℚ) 3
      = (List.range (min (3 : Int).toNat (([1, 2, 4, 8] : List ℚ).length / 2 - 1) + 1)).map
          (fun L => (L, fin (specCov ([1, 2, 4, 8] : List ℚ) L)
            / fin (specVariance ([1, 2, 4, 8] : List ℚ)))) ∧
    (specVariance ([1, 2, 4, 8] : List ℚ) ≠ 0 →
      autocorrfunc ([1, 2, 4, 8] : List ℚ) 3
        = (List.range (min (3 : Int).toNat (([1, 2, 4, 8] : List ℚ).length / 2 - 1) + 1)).map
            (fun L => (L, fin (specRho ([1, 2, 4, 8] : List ℚ) L)))) ∧
    (∀ L, L < ([1, 2, 4, 8] : List ℚ).length →
      lagTerm ([1, 2, 4, 8] : List ℚ) ([1, 2, 4, 8] : List ℚ).length
          (fin (specVariance ([1, 2, 4, 8] : List ℚ))) L
        = fin (specCov ([1, 2, 4, 8] : List ℚ) L) / fin (specVariance ([1, 2, 4, 8] : List ℚ)))) :=
  ⟨by decide, by decide, autocorrfunc_spec ([1, 2, 4, 8] : List ℚ) 3 (by decide) (by decide)⟩

/-- C5. For a non-constant sequence of length at least 2 and `maxlag >= 0`,
the mean of the squares minus the square of the mean is the biased variance,
which is not zero, and the value that `autocorrfunc` prints for lag 0 is
exactly 1. -/
theorem autocorrfunc_lag_zero (d : List α) (maxlag : Int) (hn : 2 ≤ d.length)
    (hnc : ∃ x ∈ d, ∃ y ∈ d, x ≠ y) (hm : 0 ≤ maxlag) :
    (d.map fun x => x ^ 2).sum / (d.length : α) - (d.sum / (d.length : α)) ^ 2 = specVariance d ∧
    specVariance d ≠ 0 ∧
    (autocorrfunc d maxlag).head? = some (0, fin 1) ∧
    ∀ v, (0, v) ∈ autocorrfunc d maxlag → v = fin 1 := by
  have hn0 : d.length ≠ 0 := by omega
  have hv := specVariance_ne_zero d hnc
  have h0 : (fin (specCov d 0) / fin (specVariance d) : Dbl α) = fin 1 := by
    rw [specCov_zero d hn0, fin_div _ hv, div_self hv]
  refine ⟨specVariance_eq d hn0, hv, ?_, ?_⟩
  · rw [autocorrfunc_eq d maxlag hn hm, List.range_succ_eq_map]
    simp only [List.map_cons, List.head?_cons, h0]
  · intro v hmem
    rw [autocorrfunc_eq d maxlag hn hm] at hmem
    obtain ⟨L, _, hL⟩ := List.mem_map.mp hmem
    have hL0 : L = 0 := congrArg Prod.fst hL
    have hLv := congrArg Prod.snd hL
    simp only at hLv
    rw [← hLv, hL0, h0]

/-- Witness of C5 at the sequence `[1, 2, 4, 8]` with `maxlag = 3`. -/
theorem autocorrfunc_lag_zero_witness :
    2 ≤ ([1, 2, 4, 8] : List ℚ).length ∧ (∃ x ∈ ([1, 2, 4, 8] : List ℚ), ∃ y ∈ ([1, 2, 4, 8] : List ℚ), x ≠ y) ∧
    (0 : Int) ≤ 3 ∧
    (autocorrfunc ([1, 2, 4, 8] : List ℚ) 3).head? = some (0, fin 1) :=
  ⟨by decide, ⟨1, by simp, 2, by simp, by norm_num⟩, by decide,
    (autocorrfunc_lag_zero ([1, 2, 4, 8] : List ℚ) 3 (by decide)
      ⟨1, by simp, 2, by simp, by norm_num⟩ (by decide)).2.2.1⟩

/-! ## `errorcalc` on short and on constant sequences -/

theorem specMean_replicate (c : α) {n : Nat} (hn : n ≠ 0) :
    specMean (List.replicate n c) = c := by
  have h : (n : α) ≠ 0 := Nat.cast_ne_zero.mpr hn
  simp only [specMean, List.sum_replicate, List.length_replicate, nsmul_eq_mul]
  field_simp

theorem specVariance_replicate (c : α) (n : Nat) : specVariance (List.replicate n c) = 0 := by
  rcases Nat.eq_zero_or_pos n with rfl | hn
  · simp [specVariance]
  · rw [specVariance, specMean_replicate c hn.ne']
    simp

theorem nan_mul (a : Dbl α) : (nan * a : Dbl α) = nan := rfl

theorem nan_div (a : Dbl α) : (nan / a : Dbl α) = nan := rfl

theorem mul_nan (a : Dbl α) : (a * nan : Dbl α) = nan := by
  cases a <;> rfl

theorem add_nan (a : Dbl α) : (a + nan : Dbl α) = nan := by
  cases a <;> rfl

/-- In exact arithmetic a zero variance comes with a zero autocovariance at
every lag: the division of the lag loop by a zero `sig` is a division `0/0`,
whose value is NaN. -/
theorem specCov_of_variance_zero (d : List α) (hv : specVariance d = 0) {L : Nat}
    (hL : L < d.length) : specCov d L = 0 := by
  have hn : ((d.length : Nat) : α) ≠ 0 := Nat.cast_ne_zero.mpr (by omega)
  have hs : (d.map fun x => (x - specMean d) ^ 2).sum = 0 := by
    rw [specVariance] at hv
    rcases mul_eq_zero.mp hv with h1 | h1
    · exact absurd h1 (one_div_ne_zero hn)
    · exact h1
  have hall := sum_sq_eq_zero _ _ hs
  have hget : ∀ j, j < d.length → d.getD j 0 = specMean d := by
    intro j hj
    rw [List.getD_eq_getElem _ _ hj]
    exact hall _ (List.getElem_mem hj)
  have hc : ((d.length - L : Nat) : α) ≠ 0 := Nat.cast_ne_zero.mpr (by omega)
  have hcast : ((d.length - L : Nat) : α) = (d.length : α) - (L : α) := Nat.cast_sub hL.le
  have e1 : ∑ j in Finset.range (d.length - L), d.getD j 0 * d.getD (j + L) 0
      = ((d.length - L : Nat) : α) * (specMean d * specMean d) := by
    rw [Finset.sum_congr rfl fun j hj => by
      have := Finset.mem_range.mp hj
      rw [hget j (by omega), hget (j + L) (by omega)]]
    simp
  have e2 : ∑ j in Finset.range (d.length - L), d.getD j 0
      = ((d.length - L : Nat) : α) * specMean d := by
    rw [Finset.sum_congr rfl fun j hj => by
      have := Finset.mem_range.mp hj
      rw [hget j (by omega)]]
    simp
  have e3 : ∑ j in Finset.range (d.length - L), d.getD (j + L) 0
      = ((d.length - L : Nat) : α) * specMean d := by
    rw [Finset.sum_congr rfl fun j hj => by
      have := Finset.mem_range.mp hj
      rw [hget (j + L) (by omega)]]
    simp
  rw [specCov, specMean_take d (Nat.sub_le _ _), specMean_drop, e1, e2, e3, ← hcast]
  field_simp

/-- With `n/2 = 1` the lag loop of `errorcalc` is not entered. -/
theorem errorcalc_short (rt : α → α) (d : List α) (hn : d.length = 2 ∨ d.length = 3) :
    errorcalc rt d true =
      { avep := fin (specMean d)
        sigp := fin (rt (specVariance d / ((d.length : α) - 1)))
        tintp := some (fin (1 / 2))
        warned := true } := by
  have hn0 : d.length ≠ 0 := by omega
  have hh : d.length / 2 = 1 := by omega
  have h1 : (0 : α) < (d.length : α) - 1 := by
    have : (2 : α) ≤ (d.length : α) := by exact_mod_cast (by omega : 2 ≤ d.length)
    linarith
  have hl : lagLoop d d.length (fin (specVariance d)) 1 (fin (1 / 2)) = (1, fin (1 / 2)) := by
    rw [lagLoop, if_neg]
    simp [hh]
  have habs : |(1 / 2 : α)| = 1 / 2 := abs_of_pos (by norm_num)
  simp only [errorcalc]
  rw [ave_eq d hn0, sig_eq d hn0]
  simp only [if_true, hl, fabs, habs, ofNat, ofInt, fin_mul, cast_pred, fin_div _ h1.ne', hh]
  rw [sqrt_fin]
  · norm_num
  · have := specVariance_nonneg d
    positivity

/-- With zero variance and `n >= 4` the lag loop of `errorcalc` divides by
the zero variance at lag 1 and stops at lag 2 with a `tint` that is not a
number. -/
theorem errorcalc_var_zero (rt : α → α) (d : List α) (hn : 4 ≤ d.length)
    (hv : specVariance d = 0) :
    errorcalc rt d true =
      { avep := fin (specMean d)
        sigp := nan
        tintp := some nan
        warned := decide (d.length ≤ 5) } := by
  have hn0 : d.length ≠ 0 := by omega
  have hc : (lt (ofNat (0 + 1)) (ofNat TINTSTOP * fin (1 / 2 : α))
      && decide (0 + 1 < d.length / 2)) = true := by
    rw [loopCond_eq]
    refine ⟨by norm_num, by omega⟩
  have hl : lagLoop d d.length (fin 0) 1 (fin (1 / 2)) = (2, nan) := by
    rw [lagLoop, if_pos hc, lagTerm_eq_div d _ (by omega), fin_div_zero, nan_mul, nan_div,
      add_nan, lagLoop, if_neg]
    simp [lt, mul_nan]
  have hw : decide (d.length / 2 ≤ 2) = decide (d.length ≤ 5) := by
    apply decide_eq_decide.mpr
    omega
  simp only [errorcalc]
  rw [ave_eq d hn0, sig_eq d hn0, hv]
  simp only [if_true, hl, fabs, mul_nan, nan_mul, nan_div, hw]
  rfl

/-- C6 (as the code has it). For a sequence of `n` identical values `c`:
when `n` is 2 or 3 no lag is evaluated, `tint` stays 0.5 and the standard
error is `sqrt(0)`; when `n >= 4` the lag 1 is evaluated with a division
by the zero variance, so `tint` and the standard error are not numbers (and
the warning is printed exactly when `n <= 5`). -/
theorem errorcalc_constant (rt : α → α) (c : α) (n : Nat) :
    (n = 2 ∨ n = 3 →
      errorcalc rt (List.replicate n c) true =
        { avep := fin c, sigp := fin (rt 0), tintp := some (fin (1 / 2)), warned := true }) ∧
    (4 ≤ n →
      errorcalc rt (List.replicate n c) true =
        { avep := fin c, sigp := nan, tintp := some nan, warned := decide (n ≤ 5) }) := by
  constructor
  · intro hn
    have hn0 : n ≠ 0 := by omega
    rw [errorcalc_short rt _ (by simpa using hn), specVariance_replicate,
      specMean_replicate c hn0, zero_div]
  · intro hn
    have hn0 : n ≠ 0 := by omega
    rw [errorcalc_var_zero rt _ (by simpa using hn) (specVariance_replicate c n),
      specMean_replicate c hn0, List.length_replicate]

/-- Witness of C6 at four values 1 and at three values 1. -/
theorem errorcalc_constant_witness :
    ((3 = 2 ∨ 3 = 3) ∧
      errorcalc (fun x => x) (List.replicate 3 (1 : ℚ)) true =
        { avep := fin 1, sigp := fin 0, tintp := some (fin (1 / 2)), warned := true }) ∧
    (4 ≤ 4 ∧
      errorcalc (fun x => x) (List.replicate 4 (1 : ℚ)) true =
        { avep := fin 1, sigp := nan, tintp := some nan, warned := decide (4 ≤ 5) }) :=
  ⟨⟨by decide, (errorcalc_constant (fun x => x) (1 : ℚ) 3).1 (by decide)⟩,
    ⟨by decide, (errorcalc_constant (fun x => x) (1 : ℚ) 4).2 (by decide)⟩⟩

/-- Counterexample to C6: on four identical values the lag 1 is evaluated
with a division by the zero variance; `tint` does not stay 0.5 and neither it
nor the standard error is a number. -/
theorem errorcalc_constant_nan :
    (errorcalc (fun x => x) ([1, 1, 1, 1] : List ℚ) true).tintp = some nan ∧
    (errorcalc (fun x => x) ([1, 1, 1, 1] : List ℚ) true).sigp = nan ∧
    (errorcalc (fun x => x) ([1, 1, 1, 1] : List ℚ) true).tintp ≠ some (fin (1 / 2)) ∧
    lagTerm ([1, 1, 1, 1] : List ℚ) 4 (fin (specVariance ([1, 1, 1, 1] : List ℚ))) 1 = nan := by
  have hv : specVariance ([1, 1, 1, 1] : List ℚ) = 0 := specVariance_replicate 1 4
  have h := errorcalc_var_zero (fun x => x) ([1, 1, 1, 1] : List ℚ) (by decide) hv
  have hl : lagTerm ([1, 1, 1, 1] : List ℚ) 4 (fin (specVariance ([1, 1, 1, 1] : List ℚ))) 1
      = nan := by
    have := lagTerm_eq_div ([1, 1, 1, 1] : List ℚ) (fin (specVariance ([1, 1, 1, 1] : List ℚ)))
      (by decide : 1 < ([1, 1, 1, 1] : List ℚ).length)
    rw [hv, fin_div_zero] at this
    rw [hv]
    exact this
  rw [h]
  exact ⟨rfl, rfl, by simp, hl⟩

/-! ## The warning of `errorcalc` -/

theorem run_length_unique (d : List α) {K : Nat}
    (hall : ∀ k, k < K → specContinue d k) (hstop : ¬ specContinue d K)
    (h0 : specContinue d 0) (h1 : ¬ specContinue d 1) : K = 1 := by
  rcases Nat.lt_trichotomy K 1 with h | h | h
  · have : K = 0 := by omega
    exact absurd (this ▸ h0) hstop
  · exact h
  · exact absurd (hall 1 h) h1

/-- The run of `errorcalc` on `[1, -1, 1, -1]`: the lag 1 is added and makes
`tint = -1/6`; the loop stops at lag 2. -/
theorem errorcalc_alternating :
    specContinue ([1, -1, 1, -1] : List ℚ) 0 ∧
    specTint ([1, -1, 1, -1] : List ℚ) 1 = -1 / 6 ∧
    errorcalc (fun x => x) ([1, -1, 1, -1] : List ℚ) true =
      { avep := fin 0, sigp := fin (1 / 9), tintp := some (fin (-1 / 6)), warned := true } := by
  have hm : specMean ([1, -1, 1, -1] : List ℚ) = 0 := by norm_num [specMean]
  have hv : specVariance ([1, -1, 1, -1] : List ℚ) = 1 := by
    rw [specVariance, hm]
    norm_num
  have ht0 : specTint ([1, -1, 1, -1] : List ℚ) 0 = 1 / 2 := by simp [specTint]
  have ht1 : specTint ([1, -1, 1, -1] : List ℚ) 1 = -1 / 6 := by
    rw [specTint_succ, ht0, specRho, hv, specCov]
    norm_num [specMean, Finset.sum_range_succ]
  have h0 : specContinue ([1, -1, 1, -1] : List ℚ) 0 := by
    rw [specContinue, ht0]
    exact ⟨by norm_num, by decide⟩
  have h1 : ¬ specContinue ([1, -1, 1, -1] : List ℚ) 1 := by
    rw [specContinue, ht1]
    intro h
    have := h.1
    norm_num at this
  obtain ⟨K, hall, hstop, hrun⟩ := errorcalc_run (fun x => x) ([1, -1, 1, -1] : List ℚ)
    (by decide) (by rw [hv]; norm_num)
  have hK := run_length_unique _ hall hstop h0 h1
  subst hK
  rw [hrun, ht1, hv, hm]
  refine ⟨h0, rfl, ?_⟩
  norm_num [abs_of_neg]

/-- C8 (as the code has it). For a sequence of length at least 2, `errorcalc`
with `autocorr != 0` prints the warning exactly when the lag `L = K + 1` at
which the loop stopped satisfies `L >= n/2`, whether or not the window
condition `L < 6*tint` still held at that lag; mean, standard error and
`tint` are returned in either case.  With zero variance the loop stops at
lag 1 (`n <= 3`) or at lag 2 (`tint` not a number), and the warning is
printed exactly when `n <= 5`. -/
theorem errorcalc_warning (rt : α → α) (d : List α) (hn : 2 ≤ d.length) :
    (specVariance d ≠ 0 →
      ∃ K, (∀ k, k < K → specContinue d k) ∧ ¬ specContinue d K ∧
        ((errorcalc rt d true).warned = true ↔ d.length / 2 ≤ K + 1) ∧
        (errorcalc rt d true).avep = fin (specMean d) ∧
        (errorcalc rt d true).sigp
          = fin (rt (2 * |specTint d K| * specVariance d / ((d.length : α) - 1))) ∧
        (errorcalc rt d true).tintp = some (fin (specTint d K))) ∧
    (specVariance d = 0 →
      ((errorcalc rt d true).warned = true ↔ d.length ≤ 5) ∧
      (errorcalc rt d true).avep = fin (specMean d)) := by
  constructor
  · intro hv
    obtain ⟨K, hall, hstop, hrun⟩ := errorcalc_run rt d hn hv
    refine ⟨K, hall, hstop, ?_⟩
    rw [hrun]
    exact ⟨by simp, rfl, rfl, rfl⟩
  · intro hv
    by_cases h4 : 4 ≤ d.length
    · rw [errorcalc_var_zero rt d h4 hv]
      exact ⟨by simp, rfl⟩
    · rw [errorcalc_short rt d (by omega)]
      exact ⟨by simp; omega, rfl⟩

/-- Witness of C8 at the sequence `[1, -1, 1, -1]`. -/
theorem errorcalc_warning_witness :
    2 ≤ ([1, -1, 1, -1] : List ℚ).length ∧ specVariance ([1, -1, 1, -1] : List ℚ) ≠ 0 ∧
    ∃ K, (∀ k, k < K → specContinue ([1, -1, 1, -1] : List ℚ) k) ∧
      ¬ specContinue ([1, -1, 1, -1] : List ℚ) K ∧
      ((errorcalc (fun x => x) ([1, -1, 1, -1] : List ℚ) true).warned = true
        ↔ ([1, -1, 1, -1] : List ℚ).length / 2 ≤ K + 1) ∧
      (errorcalc (fun x => x) ([1, -1, 1, -1] : List ℚ) true).avep
        = fin (specMean ([1, -1, 1, -1] : List ℚ)) ∧
      (errorcalc (fun x => x) ([1, -1, 1, -1] : List ℚ) true).sigp
        = fin (2 * |specTint ([1, -1, 1, -1] : List ℚ) K| * specVariance ([1, -1, 1, -1] : List ℚ)
            / ((([1, -1, 1, -1] : List ℚ).length : ℚ) - 1)) ∧
      (errorcalc (fun x => x) ([1, -1, 1, -1] : List ℚ) true).tintp
        = some (fin (specTint ([1, -1, 1, -1] : List ℚ) K)) :=
  ⟨by decide, by norm_num [specVariance, specMean],
    (errorcalc_warning (fun x => x) ([1, -1, 1, -1] : List ℚ) (by decide)).1
      (by norm_num [specVariance, specMean])⟩

/-- Counterexample to C8: on `[1, -1, 1, -1]` the lag 1 is added and makes
`tint = -1/6`; the loop stops at lag 2 with the window condition satisfied
(`2 >= 6 * tint`), and the warning is printed all the same. -/
theorem errorcalc_warning_window_closed :
    specContinue ([1, -1, 1, -1] : List ℚ) 0 ∧
    ¬ (((1 + 1 : Nat) : ℚ) < 6 * specTint ([1, -1, 1, -1] : List ℚ) 1) ∧
    (errorcalc (fun x => x) ([1, -1, 1, -1] : List ℚ) true).tintp
      = some (fin (specTint ([1, -1, 1, -1] : List ℚ) 1)) ∧
    (errorcalc (fun x => x) ([1, -1, 1, -1] : List ℚ) true).warned = true := by
  obtain ⟨h0, ht1, hrun⟩ := errorcalc_alternating
  rw [hrun, ht1]
  exact ⟨h0, by norm_num, rfl, rfl⟩

/-! ## `readdata`: the number of rows -/

theorem countLoop_fst (nmax skip : Int) :
    ∀ (f : List Row) (buf : Row) (i : Nat),
      (countLoop nmax skip f buf i).1
        = if nmax = 0 then i + f.length
          else max i (min (i + f.length) (wrap32 (nmax + skip)).toNat) := by
  intro f
  induction f with
  | nil =>
    intro buf i
    simp only [countLoop, List.length_nil]
    split <;> omega
  | cons r rest ih =>
    intro buf i
    simp only [countLoop, List.length_cons]
    by_cases h0 : nmax = 0
    · rw [if_pos (Or.inl h0), ih, if_pos h0, if_pos h0]
      omega
    · by_cases h1 : (i : Int) < wrap32 (nmax + skip)
      · rw [if_pos (Or.inr h1), ih, if_neg h0, if_neg h0]
        omega
      · rw [if_neg (not_or.mpr ⟨h0, h1⟩), if_neg h0]
        omega

theorem wrap32_of_ge {x : Int} (h0 : 2 ^ 31 ≤ x) (h1 : x < 2 ^ 32) : wrap32 x = x - 2 ^ 32 := by
  unfold wrap32
  omega

theorem readLoop_length (strtod : Row → Option (α × Row)) (col : List Int) (maxcol : Int) :
    ∀ (k : Nat) (line : Int) (buf : Row) (f : List Row) (rows : List (List α)),
      readLoop strtod col maxcol k line buf f = Except.ok rows → rows.length = k := by
  intro k
  induction k with
  | zero =>
    intro line buf f rows h
    simp only [readLoop, Except.ok.injEq] at h
    rw [← h]
    rfl
  | succ k ih =>
    intro line buf f rows h
    simp only [readLoop] at h
    split at h
    · exact absurd h (by simp)
    · split at h
      · exact absurd h (by simp)
      · rename_i rows1 hrows1
        simp only [Except.ok.injEq] at h
        rw [← h, List.length_cons, ih _ _ _ _ hrows1]

/-- What a successful `readdata` returns, in terms of its loops. -/
theorem readdata_ok (strtod : Row → Option (α × Row)) (buf : Row) (f : List Row)
    (col : List Int) (skip nmax : Int) (N : Int) (d : List (List α))
    (hok : readdata strtod buf f col skip nmax = Except.ok (N, d)) :
    N = ((countLoop nmax skip f buf 0).1 : Int) - skip ∧ 0 < N ∧
    ∃ maxcol rows, maxcolLoop col 0 = Except.ok maxcol ∧
      readLoop strtod col maxcol N.toNat (skip.toNat : Int)
        (skipLoop skip.toNat (countLoop nmax skip f buf 0).2 f).1
        (skipLoop skip.toNat (countLoop nmax skip f buf 0).2 f).2 = Except.ok rows ∧
      d = (List.range col.length).map fun j => rows.map fun r => r.getD j 0 := by
  simp only [readdata] at hok
  split at hok
  · exact absurd hok (by simp)
  · rename_i hpos
    split at hok
    · exact absurd hok (by simp)
    · rename_i maxcol hmax
      split at hok
      · exact absurd hok (by simp)
      · rename_i rows hrows
        simp only [Except.ok.injEq, Prod.mk.injEq] at hok
        obtain ⟨hN, hd⟩ := hok
        refine ⟨hN.symm, by omega, maxcol, rows, hmax, ?_, hd.symm⟩
        rw [← hN]
        exact hrows

/-- C9. For a source of `M` rows and `int`s `skip >= 0` and `nmax >= 0`,
a successful `readdata` returns `N = min(nmax, M - skip)` when `nmax > 0` and
`N = M - skip` when `nmax == 0`, and each of the `ncols` arrays has exactly
`N` elements. -/
theorem readdata_count (strtod : Row → Option (α × Row)) (buf : Row) (f : List Row)
    (col : List Int) (skip nmax : Int)
    (hs0 : 0 ≤ skip) (hs1 : skip < 2 ^ 31) (hn0 : 0 ≤ nmax) (hn1 : nmax < 2 ^ 31)
    (N : Int) (d : List (List α))
    (hok : readdata strtod buf f col skip nmax = Except.ok (N, d)) :
    N = (if 0 < nmax then min nmax ((f.length : Int) - skip) else (f.length : Int) - skip) ∧
    d.length = col.length ∧ ∀ c ∈ d, (c.length : Int) = N := by
  obtain ⟨hN, hpos, maxcol, rows, -, hrows, hd⟩ := readdata_ok strtod buf f col skip nmax N d hok
  have hlen := readLoop_length strtod col maxcol _ _ _ _ _ hrows
  refine ⟨?_, by rw [hd]; simp, ?_⟩
  · rw [countLoop_fst] at hN
    by_cases h0 : nmax = 0
    · rw [if_pos h0] at hN
      rw [if_neg (by omega)]
      omega
    · rw [if_neg h0] at hN
      rw [if_pos (by omega)]
      by_cases hov : nmax + skip < 2 ^ 31
      · rw [wrap32_of_lt (by omega) hov] at hN
        omega
      · rw [wrap32_of_ge (by omega) (by omega)] at hN
        omega
  · intro c hc
    rw [hd] at hc
    obtain ⟨j, -, rfl⟩ := List.mem_map.mp hc
    rw [List.length_map, hlen]
    omega

/-- Witness of C9: four rows of two columns, `skip = 1`, `nmax = 2`. -/
theorem readdata_count_witness :
    (0 : Int) ≤ 1 ∧ (1 : Int) < 2 ^ 31 ∧ (0 : Int) ≤ 2 ∧ (2 : Int) < 2 ^ 31 ∧
    readdata digitStrtod [] ["1 2\n".toList, "3 4\n".toList, "5 6\n".toList, "7 8\n".toList]
      [2, 1] 1 2 = Except.ok (2, [[4, 6], [3, 5]]) ∧
    ((2 : Int) = (if (0 : Int) < 2 then min (2 : Int)
        (((["1 2\n".toList, "3 4\n".toList, "5 6\n".toList, "7 8\n".toList] : List Row).length : Int) - 1)
      else ((["1 2\n".toList, "3 4\n".toList, "5 6\n".toList, "7 8\n".toList] : List Row).length : Int) - 1) ∧
    ([[4, 6], [3, 5]] : List (List ℚ)).length = ([2, 1] : List Int).length ∧
    ∀ c ∈ ([[4, 6], [3, 5]] : List (List ℚ)), (c.length : Int) = 2) :=
  ⟨by decide, by decide, by decide, by decide, rfl,
    readdata_count digitStrtod [] ["1 2\n".toList, "3 4\n".toList, "5 6\n".toList, "7 8\n".toList]
      [2, 1] 1 2 (by decide) (by decide) (by decide) (by decide) 2 [[4, 6], [3, 5]] rfl⟩

/-! ## `readdata`: the values -/

theorem afterField_length_lt (s : Row) (h : s.dropWhile isSpace ≠ []) :
    (afterField s).length < s.length := by
  have h1 : (s.dropWhile isSpace).length ≤ s.length := (List.dropWhile_sublist _).length_le
  have hh := List.head_dropWhile_not isSpace s h
  unfold afterField
  cases hs : s.dropWhile isSpace with
  | nil => exact absurd hs h
  | cons c t =>
    simp only [hs, List.head_cons] at hh
    rw [hs] at h1
    have h2 : (List.dropWhile (fun c => !isSpace c) (c :: t)) = List.dropWhile (fun c => !isSpace c) t := by
      rw [List.dropWhile_cons_of_pos]
      simp [hh]
    have h3 : (List.dropWhile (fun c => !isSpace c) t).length ≤ t.length :=
      (List.dropWhile_sublist _).length_le
    rw [h2]
    simp only [List.length_cons] at h1
    omega

theorem fieldsAux_nil (k : Nat) : fieldsAux k [] = [] := by
  cases k <;> simp [fieldsAux]

theorem fieldsAux_fuel :
    ∀ (k1 k2 : Nat) (s : Row), s.length ≤ k1 → s.length ≤ k2 → fieldsAux k1 s = fieldsAux k2 s := by
  intro k1
  induction k1 with
  | zero =>
    intro k2 s h1 _
    have : s = [] := List.eq_nil_of_length_eq_zero (by omega)
    rw [this, fieldsAux_nil, fieldsAux_nil]
  | succ k1 ih =>
    intro k2 s h1 h2
    cases k2 with
    | zero =>
      have : s = [] := List.eq_nil_of_length_eq_zero (by omega)
      rw [this, fieldsAux_nil, fieldsAux_nil]
    | succ k2 =>
      simp only [fieldsAux]
      by_cases h : s.dropWhile isSpace = []
      · rw [if_pos h, if_pos h]
      · have := afterField_length_lt s h
        rw [if_neg h, if_neg h, ih k2 (afterField s) (by omega) (by omega)]

/-- The fields of a row: none when the row is blank, and otherwise the first
field followed by the fields of what is behind it. -/
theorem fields_eq (s : Row) :
    fields s = if s.dropWhile isSpace = [] then [] else firstField s :: fields (afterField s) := by
  unfold fields
  cases hs : s.length with
  | zero =>
    have : s = [] := List.eq_nil_of_length_eq_zero hs
    subst this
    simp [fieldsAux]
  | succ k =>
    simp only [fieldsAux]
    by_cases h : s.dropWhile isSpace = []
    · rw [if_pos h, if_pos h]
    · have := afterField_length_lt s h
      rw [if_neg h, if_neg h, fieldsAux_fuel k (afterField s).length (afterField s) (by omega)
        (le_refl _)]

theorem fields_getD_zero (s : Row) : (fields s).getD 0 [] = firstField s := by
  rw [fields_eq]
  by_cases h : s.dropWhile isSpace = []
  · rw [if_pos h, firstField, h]
    rfl
  · rw [if_neg h]
    rfl

theorem fields_getD_succ (s : Row) (i : Nat) :
    (fields s).getD (i + 1) [] = (fields (afterField s)).getD i [] := by
  rw [fields_eq]
  by_cases h : s.dropWhile isSpace = []
  · have h2 : afterField s = [] := by rw [afterField, h]; rfl
    have h3 : fields ([] : Row) = [] := rfl
    rw [if_pos h, h2, h3]
    rfl
  · rw [if_neg h]
    rfl

/-- Under `StrtodSpec`, the conversion loop on a row whose first `k` fields
are numbers stores the values of these fields. -/
theorem parseLoop_fields {strtod : Row → Option (α × Row)} {value : Row → Option α}
    (hS : StrtodSpec strtod value) :
    ∀ (k : Nat) (s : Row) (cdata : List α), parseLoop strtod k s = some cdata →
      (∀ i, i < k → ∃ v, value ((fields s).getD i []) = some v) →
      ∀ i, i < k → value ((fields s).getD i []) = some (cdata.getD i 0) := by
  intro k
  induction k with
  | zero =>
    intro s cdata _ _ i hi
    omega
  | succ k ih =>
    intro s cdata hp hnum i hi
    obtain ⟨v0, hv0⟩ := hnum 0 (Nat.succ_pos k)
    rw [fields_getD_zero] at hv0
    have hst := hS s v0 hv0
    simp only [parseLoop, hst] at hp
    split at hp
    · exact absurd hp (by simp)
    · rename_i vs hvs
      simp only [Option.some.injEq] at hp
      subst hp
      cases i with
      | zero =>
        rw [fields_getD_zero, hv0]
        rfl
      | succ i =>
        rw [fields_getD_succ, List.getD_cons_succ]
        apply ih (afterField s) vs hvs _ i (by omega)
        intro i2 hi2
        have := hnum (i2 + 1) (by omega)
        rwa [fields_getD_succ] at this

theorem getD_drop_gen {β : Type} (l : List β) (L i : Nat) (x : β) :
    (l.drop L).getD i x = l.getD (i + L) x := by
  induction l generalizing L with
  | nil => simp
  | cons a l ih =>
    cases L with
    | zero => rfl
    | succ L => simpa [← Nat.add_assoc] using ih L

theorem getD_map_of_lt {β γ : Type} (g : β → γ) (l : List β) (x : β) (y : γ) {j : Nat}
    (h : j < l.length) : (l.map g).getD j y = g (l.getD j x) := by
  rw [List.getD_eq_getElem _ _ (by simpa using h), List.getElem_map, List.getD_eq_getElem _ _ h]

theorem skipLoop_snd :
    ∀ (k : Nat) (buf : Row) (f : List Row), k ≤ f.length → (skipLoop k buf f).2 = f.drop k := by
  intro k
  induction k with
  | zero =>
    intro buf f _
    rfl
  | succ k ih =>
    intro buf f h
    cases f with
    | nil => simp at h
    | cons r rest =>
      simp only [skipLoop, fgets, List.drop_succ_cons]
      exact ih r rest (by simpa using h)

/-- As long as the source has `k` rows left, the reading loop converts the
next `k` rows in their order. -/
theorem readLoop_rows (strtod : Row → Option (α × Row)) (col : List Int) (maxcol : Int) :
    ∀ (k : Nat) (line : Int) (buf : Row) (f : List Row) (rows : List (List α)),
      k ≤ f.length → readLoop strtod col maxcol k line buf f = Except.ok rows →
      ∀ i, i < k → ∃ cdata, parseLoop strtod maxcol.toNat (f.getD i []) = some cdata ∧
        rows.getD i [] = col.map fun c => cdata.getD (c - 1).toNat 0 := by
  intro k
  induction k with
  | zero =>
    intro line buf f rows _ _ i hi
    omega
  | succ k ih =>
    intro line buf f rows hk h i hi
    cases f with
    | nil => simp at hk
    | cons r rest =>
      simp only [readLoop, fgets] at h
      split at h
      · exact absurd h (by simp)
      · rename_i cdata hcdata
        split at h
        · exact absurd h (by simp)
        · rename_i rows1 hrows1
          simp only [Except.ok.injEq] at h
          subst h
          cases i with
          | zero => exact ⟨cdata, hcdata, rfl⟩
          | succ i =>
            simp only [List.getD_cons_succ]
            exact ih _ _ _ _ (by simpa using hk) hrows1 i (by omega)

theorem maxcolLoop_ok :
    ∀ (col : List Int) (m0 m : Int), maxcolLoop col m0 = Except.ok m →
      m = col.foldl max m0 ∧ m0 ≤ m ∧ ∀ c ∈ col, 0 < c ∧ c ≤ m := by
  intro col
  induction col with
  | nil =>
    intro m0 m h
    simp only [maxcolLoop, Except.ok.injEq] at h
    subst h
    simp
  | cons c cs ih =>
    intro m0 m h
    simp only [maxcolLoop] at h
    split at h
    · exact absurd h (by simp)
    · rename_i hc
      obtain ⟨h1, h2, h3⟩ := ih _ _ h
      have e : (if m0 < c then c else m0) = max m0 c := by
        rw [max_def]
        split <;> split <;> omega
      rw [e] at h1 h2
      refine ⟨by rw [List.foldl_cons]; exact h1, le_trans (le_max_left _ _) h2, ?_⟩
      intro x hx
      rcases List.mem_cons.mp hx with rfl | hx
      · exact ⟨by omega, le_trans (le_max_right _ _) h2⟩
      · exact h3 x hx

theorem countLoop_le (nmax skip : Int) (f : List Row) (buf : Row) :
    (countLoop nmax skip f buf 0).1 ≤ f.length := by
  rw [countLoop_fst]
  split <;> omega

/-- C10. Under `StrtodSpec` (what the C standard says of `strtod` on numeric
fields), for `int`s `skip >= 0` and `nmax >= 0`: when `readdata` succeeds with
`N` rows and the first `maxcol` whitespace-delimited fields of each of the
rows `skip+1, ..., skip+N` are numbers (`maxcol` the largest selector), then
the `i`-th element of the `j`-th array is the value of the `col[j]`-th field
of row `skip+i+1`. -/
theorem readdata_values {strtod : Row → Option (α × Row)} {value : Row → Option α}
    (hS : StrtodSpec strtod value) (buf : Row) (f : List Row)
    (col : List Int) (skip nmax : Int) (hs0 : 0 ≤ skip)
    (N : Int) (d : List (List α))
    (hok : readdata strtod buf f col skip nmax = Except.ok (N, d))
    (hrows : ∀ i : Nat, (i : Int) < N → ∀ k : Nat, (k : Int) < specMaxcol col →
      ∃ v, value ((fields (f.getD (skip.toNat + i) [])).getD k []) = some v) :
    ∀ i j : Nat, (i : Int) < N → j < col.length →
      0 < col.getD j 0 ∧
      value ((fields (f.getD (skip.toNat + i) [])).getD (col.getD j 0 - 1).toNat [])
        = some ((d.getD j []).getD i 0) := by
  obtain ⟨hN, hpos, maxcol, rows, hmax, hread, hd⟩ :=
    readdata_ok strtod buf f col skip nmax N d hok
  obtain ⟨hm1, -, hm3⟩ := maxcolLoop_ok col 0 maxcol hmax
  have hcnt := countLoop_le nmax skip f buf
  have hskip : skip.toNat ≤ f.length := by omega
  rw [skipLoop_snd _ _ _ hskip] at hread
  have hlen := readLoop_length strtod col maxcol _ _ _ _ _ hread
  intro i j hi hj
  have hcj : col.getD j 0 ∈ col := by
    rw [List.getD_eq_getElem _ _ hj]
    exact List.getElem_mem hj
  obtain ⟨hcpos, hcle⟩ := hm3 _ hcj
  obtain ⟨cdata, hparse, hrow⟩ := readLoop_rows strtod col maxcol _ _ _ _ _
    (by rw [List.length_drop]; omega) hread i (by omega)
  have hrowi : (f.drop skip.toNat).getD i [] = f.getD (skip.toNat + i) [] := by
    rw [getD_drop_gen, Nat.add_comm]
  rw [hrowi] at hparse
  have hval := parseLoop_fields hS maxcol.toNat _ cdata hparse
    (fun k hk => hrows i hi k (by rw [specMaxcol, ← hm1]; omega))
    (col.getD j 0 - 1).toNat (by omega)
  have hi2 : i < rows.length := by omega
  have hdj : (d.getD j []).getD i 0 = cdata.getD (col.getD j 0 - 1).toNat 0 := by
    have h1 : d.getD j [] = rows.map fun r => r.getD j 0 := by
      rw [hd, getD_map_of_lt _ _ 0 _ (by simpa using hj),
        List.getD_eq_getElem _ _ (by simpa using hj), List.getElem_range]
    rw [h1, getD_map_of_lt _ _ [] _ hi2, hrow, getD_map_of_lt _ _ 0 _ hj]
  rw [hdj]
  exact ⟨hcpos, hval⟩

theorem digitStrtod_spec : StrtodSpec digitStrtod digitValue := by
  intro s v h
  simp only [digitStrtod, h]

theorem digit_rows_numeric :
    ∀ i : Nat, (i : Int) < 2 → ∀ k : Nat, (k : Int) < specMaxcol [2, 1] →
      ∃ v, digitValue ((fields ((["1 2\n".toList, "3 4\n".toList, "5 6\n".toList,
        "7 8\n".toList] : List Row).getD ((1 : Int).toNat + i) [])).getD k []) = some v := by
  intro i hi k hk
  have hk2 : k < 2 := by
    have : specMaxcol [2, 1] = 2 := by decide
    omega
  have hi2 : i < 2 := by omega
  interval_cases i <;> interval_cases k <;> exact ⟨_, rfl⟩

/-- Witness of C10: four rows of two one-digit columns, selectors `[2, 1]`,
`skip = 1`, `nmax = 2`. -/
theorem readdata_values_witness :
    StrtodSpec digitStrtod digitValue ∧ (0 : Int) ≤ 1 ∧
    readdata digitStrtod [] ["1 2\n".toList, "3 4\n".toList, "5 6\n".toList, "7 8\n".toList]
      [2, 1] 1 2 = Except.ok (2, [[4, 6], [3, 5]]) ∧
    ∀ i j : Nat, (i : Int) < 2 → j < ([2, 1] : List Int).length →
      0 < ([2, 1] : List Int).getD j 0 ∧
      digitValue ((fields ((["1 2\n".toList, "3 4\n".toList, "5 6\n".toList,
          "7 8\n".toList] : List Row).getD ((1 : Int).toNat + i) [])).getD
            (([2, 1] : List Int).getD j 0 - 1).toNat [])
        = some ((([[4, 6], [3, 5]] : List (List ℚ)).getD j []).getD i 0) :=
  ⟨digitStrtod_spec, by decide, rfl,
    readdata_values digitStrtod_spec []
      ["1 2\n".toList, "3 4\n".toList, "5 6\n".toList, "7 8\n".toList] [2, 1] 1 2 (by decide)
      2 [[4, 6], [3, 5]] rfl digit_rows_numeric⟩

/-- Witness of C1 at the sequence `[1, -1, 1, -1]` over the rationals. -/
theorem errorcalc_autocorr_spec_witness :
    2 ≤ ([1, -1, 1, -1] : List ℚ).length ∧ specVariance ([1, -1, 1, -1] : List ℚ) ≠ 0 ∧
    (specTint ([1, -1, 1, -1] : List ℚ) 0 = 1 / 2 ∧
      (∀ k, specTint ([1, -1, 1, -1] : List ℚ) (k + 1)
        = specTint ([1, -1, 1, -1] : List ℚ) k + specRho ([1, -1, 1, -1] : List ℚ) (k + 1)
          * (((([1, -1, 1, -1] : List ℚ).length : ℚ)) - ((k + 1 : Nat) : ℚ))
          / ((([1, -1, 1, -1] : List ℚ).length : ℚ))) ∧
      ∃ K, (∀ k, k < K → specContinue ([1, -1, 1, -1] : List ℚ) k) ∧
        ¬ specContinue ([1, -1, 1, -1] : List ℚ) K ∧
        errorcalc (fun x => x) ([1, -1, 1, -1] : List ℚ) true =
          { avep := fin (specMean [1, -1, 1, -1])
            sigp := fin (2 * |specTint [1, -1, 1, -1] K| * specVariance [1, -1, 1, -1]
              / ((([1, -1, 1, -1] : List ℚ).length : ℚ) - 1))
            tintp := some (fin (specTint [1, -1, 1, -1] K))
            warned := decide (([1, -1, 1, -1] : List ℚ).length / 2 ≤ K + 1) }) :=
  ⟨by decide, by norm_num [specVariance, specMean],
    errorcalc_autocorr_spec (fun x => x) [1, -1, 1, -1] (by decide)
      (by norm_num [specVariance, specMean])⟩

/-- Witness of C2 at the sequence `[1, 2, 3, 4, 5]` over the rationals. -/
theorem errorcalc_naive_spec_witness :
    2 ≤ ([1, 2, 3, 4, 5] : List ℚ).length ∧
    errorcalc (fun x => x) ([1, 2, 3, 4, 5] : List ℚ) false =
      { avep := fin (specMean [1, 2, 3, 4, 5])
        sigp := fin (specVariance [1, 2, 3, 4, 5] / ((([1, 2, 3, 4, 5] : List ℚ).length : ℚ) - 1))
        tintp := none
        warned := false } :=
  ⟨by decide, (errorcalc_naive_spec (fun x => x) [1, 2, 3, 4, 5]).1 (by decide)⟩

/-! ## Naive mode, short sequences, and block length 1 -/

/-- What `errorcalc` returns with `autocorr = 0` on a sequence of length at
least 2. -/
theorem errorcalc_naive_eq (rt : α → α) (d : List α) (hn : 2 ≤ d.length) :
    errorcalc rt d false =
      { avep := fin (specMean d)
        sigp := fin (rt (specVariance d / ((d.length : α) - 1)))
        tintp := none
        warned := false } := by
  have hn0 : d.length ≠ 0 := by omega
  have h1 : (0 : α) < (d.length : α) - 1 := by
    have : (2 : α) ≤ (d.length : α) := by exact_mod_cast hn
    linarith
  simp only [errorcalc]
  rw [ave_eq d hn0, sig_eq d hn0]
  simp only [ofInt, cast_pred, fin_div _ h1.ne']
  rw [sqrt_fin]
  · simp
  · have := specVariance_nonneg d
    positivity

theorem lagLoopLags_short (d : List α) (sig tint : Dbl α) (h : d.length / 2 ≤ 1) :
    lagLoopLags d d.length sig 1 tint = [] := by
  rw [lagLoopLags, if_neg]
  simp only [Bool.and_eq_true, decide_eq_true_eq, not_and, not_lt]
  intro _
  exact h

/-- C19. For a sequence of length 2 or 3, `n/2 = 1` and `errorcalc` with
`autocorr != 0` runs the body of its lag loop at no lag; it returns
`tint = 0.5` and the standard error `sqrt(variance/(n-1))`, which is the one
of the naive mode, and prints the warning, whatever the data. -/
theorem errorcalc_short_spec (rt : α → α) (d : List α) (hn : d.length = 2 ∨ d.length = 3) :
    d.length / 2 = 1 ∧ errorcalcLags d = [] ∧
    errorcalc rt d true =
      { avep := fin (specMean d)
        sigp := fin (rt (specVariance d / ((d.length : α) - 1)))
        tintp := some (fin (1 / 2))
        warned := true } ∧
    (errorcalc rt d true).sigp = (errorcalc rt d false).sigp := by
  have hh : d.length / 2 = 1 := by omega
  refine ⟨hh, lagLoopLags_short d _ _ hh.le, errorcalc_short rt d hn, ?_⟩
  rw [errorcalc_short rt d hn, errorcalc_naive_eq rt d (by omega)]

/-- Witness of C19 at the sequence `[1, 5, 2]`. -/
theorem errorcalc_short_spec_witness :
    (([1, 5, 2] : List ℚ).length = 2 ∨ ([1, 5, 2] : List ℚ).length = 3) ∧
    errorcalcLags ([1, 5, 2] : List ℚ) = [] ∧
    (errorcalc (fun x => x) ([1, 5, 2] : List ℚ) true).tintp = some (fin (1 / 2)) ∧
    (errorcalc (fun x => x) ([1, 5, 2] : List ℚ) true).warned = true ∧
    (errorcalc (fun x => x) ([1, 5, 2] : List ℚ) true).sigp
      = (errorcalc (fun x => x) ([1, 5, 2] : List ℚ) false).sigp :=
  have h := errorcalc_short_spec (fun x => x) ([1, 5, 2] : List ℚ) (Or.inr rfl)
  ⟨Or.inr rfl, h.2.1, by rw [h.2.2.1], by rw [h.2.2.1], h.2.2.2⟩

/-- C15. For `n >= 2` identical values `c` (and a root function with
`sqrt(0) = 0`), the biased variance that `errorcalc` computes is exactly 0,
and with `autocorr = 0` it returns the mean `c` and the standard error 0. -/
theorem errorcalc_naive_constant (rt : α → α) (hrt : rt 0 = 0) (c : α) (n : Nat) (hn : 2 ≤ n) :
    specVariance (List.replicate n c) = 0 ∧
    forSum (fun i => sqr (elem (List.replicate n c) i
        - forSum (fun i => elem (List.replicate n c) i) (List.replicate n c).length
          / ofNat (List.replicate n c).length)) (List.replicate n c).length
      / ofNat (List.replicate n c).length = fin 0 ∧
    errorcalc rt (List.replicate n c) false =
      { avep := fin c, sigp := fin 0, tintp := none, warned := false } := by
  have hn0 : (List.replicate n c).length ≠ 0 := by simp; omega
  refine ⟨specVariance_replicate c n, ?_, ?_⟩
  · rw [ave_eq _ hn0, sig_eq _ hn0, specVariance_replicate]
  · rw [errorcalc_naive_eq rt _ (by simpa using hn), specVariance_replicate,
      specMean_replicate c (by omega), zero_div, hrt]

/-- Witness of C15 at three values 7. -/
theorem errorcalc_naive_constant_witness :
    (fun x : ℚ => x) 0 = 0 ∧ 2 ≤ 3 ∧
    errorcalc (fun x => x) (List.replicate 3 (7 : ℚ)) false =
      { avep := fin 7, sigp := fin 0, tintp := none, warned := false } :=
  ⟨rfl, by decide, (errorcalc_naive_constant (fun x => x) rfl (7 : ℚ) 3 (by decide)).2.2⟩

theorem specBlockRadicand_one (d : List α) (hn : 2 ≤ d.length) :
    specBlockRadicand d 1 = specVariance d / ((d.length : α) - 1) := by
  have h2 : (2 : α) ≤ (d.length : α) := by exact_mod_cast hn
  have h0 : (d.length : α) ≠ 0 := by linarith
  have h1 : (d.length : α) - 1 ≠ 0 := by linarith
  rw [specBlockRadicand, specBlocks_one, Nat.div_one, specVariance]
  field_simp

theorem errorcalc_naive_one_zeros (rt : α → α) (k : Nat) (hk : 1 ≤ k) :
    errorcalc rt (1 :: List.replicate k (0 : α)) false =
      { avep := fin (1 / ((k : α) + 1))
        sigp := fin (rt (specVariance (1 :: List.replicate k (0 : α)) / (k : α)))
        tintp := none
        warned := false } := by
  have hlen : (1 :: List.replicate k (0 : α)).length = k + 1 := by
    simp only [List.length_cons, List.length_replicate]
  have hm : specMean (1 :: List.replicate k (0 : α)) = 1 / ((k : α) + 1) := by
    simp only [specMean, List.sum_cons, List.sum_replicate, List.length_cons,
      List.length_replicate, smul_zero, add_zero]
    push_cast
    rfl
  rw [errorcalc_naive_eq rt _ (by rw [hlen]; omega), hm, hlen]
  push_cast
  rw [add_sub_cancel_right]

/-- C18. For a sequence of length `n >= 2` whose product `n*(n-1)` fits a
32-bit `int`, `blockerr` with block length 1 returns the mean and the
standard error of `errorcalc` with `autocorr = 0`.  For `n = 46342` (a one
followed by 46341 zeros) the `int` product of `blockerr` overflows: its
standard error is not a number, while the one of `errorcalc` is. -/
theorem blockerr_one_naive (rt : α → α) (d : List α) :
    (2 ≤ d.length → d.length * (d.length - 1) < 2 ^ 31 →
      blockerr rt d 1 =
        { avep := (errorcalc rt d false).avep, sigp := (errorcalc rt d false).sigp }) ∧
    (blockerr rt (1 :: List.replicate 46341 (0 : α)) 1).avep
      = (errorcalc rt (1 :: List.replicate 46341 (0 : α)) false).avep ∧
    (blockerr rt (1 :: List.replicate 46341 (0 : α)) 1).sigp = nan ∧
    (errorcalc rt (1 :: List.replicate 46341 (0 : α)) false).sigp
      = fin (rt (specVariance (1 :: List.replicate 46341 (0 : α)) / 46341)) := by
  have he := errorcalc_naive_one_zeros rt 46341 (by norm_num)
  have e1 : ((46341 : Nat) : α) + 1 = 46342 := by norm_num
  have e2 : ((46341 : Nat) : α) = 46341 := by norm_num
  rw [e1, e2] at he
  refine ⟨?_, ?_, ?_, ?_⟩
  · intro hn hfit
    rw [blockerr_small rt d (by norm_num) (by simpa using hn) (by simpa using hfit),
      errorcalc_naive_eq rt d hn, specBlocks_one, specBlockRadicand_one d hn]
  · rw [blockerr_overflow, he]
  · rw [blockerr_overflow]
  · rw [he]

/-- Witness of C18 at the sequence `[1, 2, 4, 8]`. -/
theorem blockerr_one_naive_witness :
    2 ≤ ([1, 2, 4, 8] : List ℚ).length ∧
    ([1, 2, 4, 8] : List ℚ).length * (([1, 2, 4, 8] : List ℚ).length - 1) < 2 ^ 31 ∧
    blockerr (fun x => x) ([1, 2, 4, 8] : List ℚ) 1 =
      { avep := (errorcalc (fun x => x) ([1, 2, 4, 8] : List ℚ) false).avep
        sigp := (errorcalc (fun x => x) ([1, 2, 4, 8] : List ℚ) false).sigp } :=
  ⟨by decide, by norm_num,
    (blockerr_one_naive (fun x => x) ([1, 2, 4, 8] : List ℚ)).1 (by decide) (by norm_num)⟩

/-! ## The lag loops: rounds and indices -/

/-- The lag loop of `errorcalc` runs its body at consecutive lags below
`n/2`, and leaves with the lag that follows them. -/
theorem lagLoopLags_eq (d : List α) (n : Nat) (sig : Dbl α) :
    ∀ (m it : Nat) (tint : Dbl α), n / 2 - it = m →
      ∃ L, lagLoopLags d n sig it tint = List.range' it L ∧ L ≤ n / 2 - it ∧
        (lagLoop d n sig it tint).1 = it + L := by
  intro m
  induction m with
  | zero =>
    intro it tint h
    have hc : ¬ (lt (ofNat it) (ofNat TINTSTOP * tint) && decide (it < n / 2)) = true := by
      simp only [Bool.and_eq_true, decide_eq_true_eq, not_and, not_lt]
      intro _
      omega
    refine ⟨0, ?_, Nat.zero_le _, ?_⟩
    · rw [lagLoopLags, if_neg hc]
      rfl
    · rw [lagLoop, if_neg hc]
      rfl
  | succ m ih =>
    intro it tint h
    by_cases hc : (lt (ofNat it) (ofNat TINTSTOP * tint) && decide (it < n / 2)) = true
    · obtain ⟨L, h1, h2, h3⟩ := ih (it + 1)
        (tint + lagTerm d n sig it * ofNat (n - it) / ofNat n) (by omega)
      refine ⟨L + 1, ?_, by omega, ?_⟩
      · rw [lagLoopLags, if_pos hc, h1]
        rfl
      · rw [lagLoop, if_pos hc, h3]
        omega
    · refine ⟨0, ?_, Nat.zero_le _, ?_⟩
      · rw [lagLoopLags, if_neg hc]
        rfl
      · rw [lagLoop, if_neg hc]
        rfl

/-- The lag loop of `autocorrfunc` prints at consecutive lags below `n/2`. -/
theorem autocorrLoop_lags (d : List α) (n : Nat) (sig : Dbl α) (maxlag : Int) :
    ∀ (m it : Nat), n / 2 - it = m →
      ∃ L, (autocorrLoop d n sig maxlag it).map Prod.fst = List.range' it L ∧ L ≤ n / 2 - it := by
  intro m
  induction m with
  | zero =>
    intro it h
    refine ⟨0, ?_, Nat.zero_le _⟩
    rw [autocorrLoop, if_neg]
    · rfl
    · intro hc
      have := hc.2
      omega
  | succ m ih =>
    intro it h
    by_cases hc : (it : Int) ≤ maxlag ∧ it < n / 2
    · obtain ⟨L, h1, h2⟩ := ih (it + 1) (by omega)
      refine ⟨L + 1, ?_, by omega⟩
      rw [autocorrLoop, if_pos hc, List.map_cons, h1]
      rfl
    · refine ⟨0, ?_, Nat.zero_le _⟩
      rw [autocorrLoop, if_neg hc]
      rfl

theorem lagReads_lt {n it : Nat} : ∀ i ∈ lagReads n it, i < n := by
  intro i hi
  simp only [lagReads, List.mem_flatMap, List.mem_range, List.mem_cons, List.mem_singleton,
    List.not_mem_nil, or_false] at hi
  obtain ⟨j, hj, h | h⟩ := hi <;> omega

/-- C20. For every sequence of length `n` and every `maxlag`, the lag loop of
`errorcalc` runs its body at the lags `1, ..., L` with `L <= n/2 - 1` (none
when `n/2 <= 1`) and leaves with the lag `L + 1`, the lag loop of
`autocorrfunc` runs at the lags `0, ..., L - 1` with `L <= n/2`; at each of
these lags the pair count `nc = n - lag` is at least 1 and every index `j` and
`j + lag` read by the body is smaller than `n`. -/
theorem lag_loops_safe (d : List α) (maxlag : Int) :
    (∃ L, errorcalcLags d = List.range' 1 L ∧ L ≤ d.length / 2 - 1 ∧
      (errorcalcLags d).length ≤ d.length / 2 - 1) ∧
    (∃ L, (autocorrfunc d maxlag).map Prod.fst = List.range' 0 L ∧ L ≤ d.length / 2 ∧
      (autocorrfunc d maxlag).length ≤ d.length / 2) ∧
    (∀ it, it ∈ errorcalcLags d ∨ it ∈ (autocorrfunc d maxlag).map Prod.fst →
      1 ≤ d.length - it ∧ ∀ i ∈ lagReads d.length it, i < d.length) := by
  obtain ⟨L1, h1, h2, -⟩ := lagLoopLags_eq d d.length
    (forSum (fun i => sqr (elem d i - forSum (fun i => elem d i) d.length / ofNat d.length))
      d.length / ofNat d.length) _ 1 (fin (1 / 2)) rfl
  obtain ⟨L2, h3, h4⟩ := autocorrLoop_lags d d.length
    (forSum (fun i => sqr (elem d i - forSum (fun i => elem d i) d.length / ofNat d.length))
      d.length / ofNat d.length) maxlag _ 0 rfl
  have e1 : errorcalcLags d = List.range' 1 L1 := h1
  have e2 : (autocorrfunc d maxlag).map Prod.fst = List.range' 0 L2 := h3
  have e3 : (autocorrfunc d maxlag).length = L2 := by
    have := congrArg List.length e2
    simpa using this
  refine ⟨⟨L1, e1, h2, by rw [e1]; simpa using h2⟩, ⟨L2, e2, by omega, by omega⟩, ?_⟩
  intro it hit
  refine ⟨?_, lagReads_lt⟩
  rcases hit with hit | hit
  · rw [e1, List.mem_range'_1] at hit
    omega
  · rw [e2, List.mem_range'_1] at hit
    omega

/-! ## `errorcalc` under an affine change of the data -/

theorem sum_map_affine (a b : α) (l : List α) :
    (l.map fun x => a * x + b).sum = a * l.sum + (l.length : α) * b := by
  induction l with
  | nil => simp
  | cons x l ih =>
    simp only [List.map_cons, List.sum_cons, List.length_cons, ih]
    push_cast
    ring

theorem specMean_map (a b : α) (l : List α) (hl : l.length ≠ 0) :
    specMean (l.map fun x => a * x + b) = a * specMean l + b := by
  have h : ((l.length : Nat) : α) ≠ 0 := Nat.cast_ne_zero.mpr hl
  rw [specMean, specMean, sum_map_affine, List.length_map]
  field_simp
  ring

theorem sum_map_mul_left (c : α) (g : α → α) (l : List α) :
    (l.map fun x => c * g x).sum = c * (l.map g).sum := by
  induction l with
  | nil => simp
  | cons x l ih =>
    simp only [List.map_cons, List.sum_cons, ih]
    ring

theorem specVariance_map (a b : α) (d : List α) (hn : d.length ≠ 0) :
    specVariance (d.map fun x => a * x + b) = a ^ 2 * specVariance d := by
  rw [specVariance, specVariance, specMean_map a b d hn, List.map_map, List.length_map]
  have e : ((fun x => (x - (a * specMean d + b)) ^ 2) ∘ fun x => a * x + b)
      = fun x => a ^ 2 * (fun x => (x - specMean d) ^ 2) x := by
    funext x
    simp only [Function.comp]
    ring
  rw [e, sum_map_mul_left]
  ring

theorem specCov_map (a b : α) (d : List α) {L : Nat} (hL : L < d.length) :
    specCov (d.map fun x => a * x + b) L = a ^ 2 * specCov d L := by
  have hc : ((d.length - L : Nat) : α) ≠ 0 := Nat.cast_ne_zero.mpr (by omega)
  have hs : (d.length : α) - (L : α) = ((d.length - L : Nat) : α) := (Nat.cast_sub hL.le).symm
  have ht : (d.take (d.length - L)).length ≠ 0 := by
    rw [List.length_take]
    omega
  have hd : (d.drop L).length ≠ 0 := by
    rw [List.length_drop]
    omega
  have e : ∑ j in Finset.range (d.length - L),
        (d.map fun x => a * x + b).getD j 0 * (d.map fun x => a * x + b).getD (j + L) 0
      = a ^ 2 * (∑ j in Finset.range (d.length - L), d.getD j 0 * d.getD (j + L) 0)
        + a * b * (∑ j in Finset.range (d.length - L), d.getD j 0)
        + a * b * (∑ j in Finset.range (d.length - L), d.getD (j + L) 0)
        + ((d.length - L : Nat) : α) * b ^ 2 := by
    rw [Finset.mul_sum, Finset.mul_sum, Finset.mul_sum, ← Finset.sum_add_distrib,
      ← Finset.sum_add_distrib]
    have hconst : ((d.length - L : Nat) : α) * b ^ 2
        = ∑ _j in Finset.range (d.length - L), b ^ 2 := by
      simp
    rw [hconst, ← Finset.sum_add_distrib]
    apply Finset.sum_congr rfl
    intro j hj
    have hj := Finset.mem_range.mp hj
    rw [getD_map_of_lt _ d 0 0 (by omega : j < d.length),
      getD_map_of_lt _ d 0 0 (by omega : j + L < d.length)]
    ring
  rw [specCov, specCov, List.length_map, e, ← List.map_take, ← List.map_drop,
    specMean_map a b _ ht, specMean_map a b _ hd, specMean_take d (Nat.sub_le _ _),
    specMean_drop, hs]
  field_simp
  ring

theorem specRho_map {a : α} (ha : a ≠ 0) (b : α) (d : List α) {L : Nat} (hL : L < d.length) :
    specRho (d.map fun x => a * x + b) L = specRho d L := by
  have hn : d.length ≠ 0 := by omega
  rw [specRho, specRho, specCov_map a b d hL, specVariance_map a b d hn]
  by_cases hv : specVariance d = 0
  · rw [hv]
    simp
  · field_simp
    ring

theorem specTint_map {a : α} (ha : a ≠ 0) (b : α) (d : List α) {k : Nat} (hk : k < d.length) :
    specTint (d.map fun x => a * x + b) k = specTint d k := by
  rw [specTint, specTint, List.length_map]
  congr 1
  apply Finset.sum_congr rfl
  intro i hi
  have hi := Finset.mem_range.mp hi
  rw [specRho_map ha b d (by omega : i + 1 < d.length)]

theorem specContinue_map {a : α} (ha : a ≠ 0) (b : α) (d : List α) {k : Nat} (hk : k < d.length) :
    specContinue (d.map fun x => a * x + b) k ↔ specContinue d k := by
  rw [specContinue, specContinue, specTint_map ha b d hk, List.length_map]

/-- The run of `errorcalc` of `errorcalc_run`, with the lags at which the
body of the lag loop is run. -/
theorem errorcalc_run_lags (rt : α → α) (d : List α)
    (hn : 2 ≤ d.length) (hv : specVariance d ≠ 0) :
    ∃ K, (∀ k, k < K → specContinue d k) ∧ ¬ specContinue d K ∧
      errorcalcLags d = List.range' 1 K ∧
      errorcalc rt d true =
        { avep := fin (specMean d)
          sigp := fin (rt (2 * |specTint d K| * specVariance d / ((d.length : α) - 1)))
          tintp := some (fin (specTint d K))
          warned := decide (d.length / 2 ≤ K + 1) } := by
  obtain ⟨K, -, hall, hstop, hrun⟩ := lagLoop_spec d hv _ 0 rfl
  have hn0 : d.length ≠ 0 := by omega
  have ht : specTint d 0 = 1 / 2 := by simp [specTint]
  rw [ht, Nat.zero_add] at hrun
  obtain ⟨L, hL1, -, hL3⟩ := lagLoopLags_eq d d.length (fin (specVariance d)) _ 1 (fin (1 / 2)) rfl
  rw [hrun] at hL3
  have hKL : L = K := by
    simp only at hL3
    omega
  subst hKL
  have hlags : errorcalcLags d = List.range' 1 L := by
    simp only [errorcalcLags]
    rw [ave_eq d hn0, sig_eq d hn0]
    exact hL1
  have h1 : (0 : α) < (d.length : α) - 1 := by
    have : (2 : α) ≤ (d.length : α) := by exact_mod_cast hn
    linarith
  refine ⟨L, fun k hk => hall k (Nat.zero_le k) hk, hstop, hlags, ?_⟩
  simp only [errorcalc]
  rw [ave_eq d hn0, sig_eq d hn0]
  simp only [if_true, hrun, fabs, ofNat, ofInt, fin_mul, cast_pred, fin_div _ h1.ne']
  rw [sqrt_fin]
  · norm_num
  · have := specVariance_nonneg d
    positivity

/-- C17. For a non-constant sequence `x` of length at least 2, `a != 0` and
`b` (and a root function with `sqrt(a^2 * r) = |a| * sqrt(r)`), `errorcalc`
with `autocorr != 0` on the sequence `a*x[i] + b` runs the body of its lag
loop at the same lags as on `x` and returns the same `tint`, the mean
`a*mean(x) + b` and `|a|` times the standard error of `x`; every `rho(L)` is
the same for the two sequences. -/
theorem errorcalc_affine (rt : α → α) (a b : α) (ha : a ≠ 0)
    (hrt : ∀ r, 0 ≤ r → rt (a ^ 2 * r) = |a| * rt r) (d : List α)
    (hn : 2 ≤ d.length) (hnc : ∃ x ∈ d, ∃ y ∈ d, x ≠ y) :
    (∀ L, L < d.length → specRho (d.map fun x => a * x + b) L = specRho d L) ∧
    errorcalcLags (d.map fun x => a * x + b) = errorcalcLags d ∧
    ∃ s t w,
      errorcalc rt d true =
        { avep := fin (specMean d), sigp := fin s, tintp := some (fin t), warned := w } ∧
      errorcalc rt (d.map fun x => a * x + b) true =
        { avep := fin (a * specMean d + b), sigp := fin (|a| * s), tintp := some (fin t),
          warned := w } := by
  have hn0 : d.length ≠ 0 := by omega
  have hv := specVariance_ne_zero d hnc
  have hv2 : specVariance (d.map fun x => a * x + b) ≠ 0 := by
    rw [specVariance_map a b d hn0]
    exact mul_ne_zero (pow_ne_zero 2 ha) hv
  obtain ⟨K, hall, hstop, hlags, hrun⟩ := errorcalc_run_lags rt d hn hv
  obtain ⟨K2, hall2, hstop2, hlags2, hrun2⟩ :=
    errorcalc_run_lags rt (d.map fun x => a * x + b) (by simpa using hn) hv2
  have hK : K2 = K := by
    rcases Nat.lt_trichotomy K2 K with h | h | h
    · have hc := hall K2 h
      have hlt : K2 < d.length := by have := hc.2; omega
      exact absurd ((specContinue_map ha b d hlt).mpr hc) hstop2
    · exact h
    · have hc := hall2 K h
      have hlt : K < d.length := by
        have := hc.2
        rw [List.length_map] at this
        omega
      exact absurd ((specContinue_map ha b d hlt).mp hc) hstop
  subst hK
  have hKn : K2 < d.length := by
    rcases Nat.eq_zero_or_pos K2 with h | h
    · omega
    · have := (hall (K2 - 1) (by omega)).2
      omega
  have h1 : (0 : α) < (d.length : α) - 1 := by
    have : (2 : α) ≤ (d.length : α) := by exact_mod_cast hn
    linarith
  refine ⟨fun L hL => specRho_map ha b d hL, by rw [hlags, hlags2], _, _, _, hrun, ?_⟩
  rw [hrun2, specMean_map a b d hn0, specTint_map ha b d hKn, specVariance_map a b d hn0,
    List.length_map, ← hrt]
  · congr 3
    ring
  · have := specVariance_nonneg d
    positivity

/-- Witness of C17 at the sequence `[1, 2, 4, 8]` with `a = -1` and `b = 3`. -/
theorem errorcalc_affine_witness :
    (-1 : ℚ) ≠ 0 ∧ (∀ r : ℚ, 0 ≤ r → (fun x : ℚ => x) ((-1) ^ 2 * r) = |(-1 : ℚ)| * (fun x : ℚ => x) r) ∧
    2 ≤ ([1, 2, 4, 8] : List ℚ).length ∧
    errorcalcLags (([1, 2, 4, 8] : List ℚ).map fun x => -1 * x + 3)
      = errorcalcLags ([1, 2, 4, 8] : List ℚ) :=
  have hrt : ∀ r : ℚ, 0 ≤ r → (fun x : ℚ => x) ((-1) ^ 2 * r) = |(-1 : ℚ)| * (fun x : ℚ => x) r := by
    intro r _
    norm_num
  ⟨by norm_num, hrt, by decide,
    (errorcalc_affine (fun x => x) (-1 : ℚ) 3 (by norm_num) hrt ([1, 2, 4, 8] : List ℚ)
      (by decide) ⟨1, by simp, 2, by simp, by norm_num⟩).2.1⟩

/-! ## `readdata`: the failures -/

theorem countRows_eq (nmax skip : Int) (f : List Row) (buf : Row)
    (hs0 : 0 ≤ skip) (hn0 : 0 ≤ nmax) (hfit : skip + nmax < 2 ^ 31) :
    countRows nmax skip f buf = specCount f.length skip nmax := by
  rw [countRows, specCount, countLoop_fst]
  by_cases h0 : nmax = 0
  · rw [if_pos h0, if_neg (by omega)]
    omega
  · rw [if_neg h0, if_pos (by omega), wrap32_of_lt (by omega) (by omega)]
    omega

theorem maxcolLoop_error :
    ∀ (col : List Int) (m0 : Int) (e : Failure), maxcolLoop col m0 = Except.error e →
      ∃ c, e = Failure.invalidColumn c := by
  intro col
  induction col with
  | nil =>
    intro m0 e h
    simp [maxcolLoop] at h
  | cons c cs ih =>
    intro m0 e h
    simp only [maxcolLoop] at h
    split at h
    · simp only [Except.error.injEq] at h
      exact ⟨c, h.symm⟩
    · exact ih _ e h

theorem readLoop_error (strtod : Row → Option (α × Row)) (col : List Int) (maxcol : Int) :
    ∀ (k : Nat) (line : Int) (buf : Row) (f : List Row) (e : Failure),
      readLoop strtod col maxcol k line buf f = Except.error e →
      ∃ l, e = Failure.malformedRow l maxcol := by
  intro k
  induction k with
  | zero =>
    intro line buf f e h
    simp [readLoop] at h
  | succ k ih =>
    intro line buf f e h
    simp only [readLoop] at h
    split at h
    · simp only [Except.error.injEq] at h
      exact ⟨_, h.symm⟩
    · split at h
      · rename_i e1 he1
        simp only [Except.error.injEq] at h
        subst h
        exact ih _ _ _ _ he1
      · simp at h

/-- `readdata` leaves with ` No data to be read` exactly when the counting
loop leaves no row to be read. -/
theorem readdata_insufficient_iff (strtod : Row → Option (α × Row)) (buf : Row) (f : List Row)
    (col : List Int) (skip nmax : Int) :
    readdata strtod buf f col skip nmax = Except.error Failure.insufficientData
      ↔ countRows nmax skip f buf ≤ 0 := by
  constructor
  · intro h
    by_contra hpos
    rw [countRows] at hpos
    simp only [readdata] at h
    rw [if_neg hpos] at h
    split at h
    · rename_i e he
      obtain ⟨c, hc⟩ := maxcolLoop_error _ _ _ he
      simp only [Except.error.injEq] at h
      rw [hc] at h
      exact absurd h (by simp)
    · split at h
      · rename_i e he
        obtain ⟨l, hl⟩ := readLoop_error _ _ _ _ _ _ _ _ he
        simp only [Except.error.injEq] at h
        rw [hl] at h
        exact absurd h (by simp)
      · simp at h
  · intro h
    rw [countRows] at h
    simp only [readdata]
    rw [if_pos h]

theorem readdata_overflow (strtod : Row → Option (α × Row)) (buf r1 r2 : Row) (col : List Int) :
    readdata strtod buf [r1, r2] col 1 2147483647 = Except.error Failure.insufficientData := by
  rw [readdata_insufficient_iff, countRows]
  have hw : wrap32 (2147483647 + 1) = -2147483648 := by
    norm_num [wrap32]
  simp only [countLoop, hw]
  norm_num

/-- C12. For `int`s `skip >= 0` and `nmax >= 0` whose sum `nmax+skip` fits a
32-bit `int`, `readdata` on a source of `M` rows fails with the
insufficient-data error exactly when `N <= 0`, where `N = min(M, skip+nmax)
- skip` for `nmax > 0` and `N = M - skip` for `nmax == 0`; the failure
carries no output.  For `skip = 1` and `nmax = 2147483647` the sum
overflows: on a source of two rows the load fails with that error although
`N = 1`. -/
theorem readdata_no_data (strtod : Row → Option (α × Row)) (buf : Row) (f : List Row)
    (col : List Int) (skip nmax : Int) (r1 r2 : Row) :
    (0 ≤ skip → 0 ≤ nmax → skip + nmax < 2 ^ 31 →
      (readdata strtod buf f col skip nmax = Except.error Failure.insufficientData
        ↔ specCount f.length skip nmax ≤ 0)) ∧
    readdata strtod buf [r1, r2] col 1 2147483647 = Except.error Failure.insufficientData ∧
    specCount ([r1, r2] : List Row).length 1 2147483647 = 1 := by
  refine ⟨?_, readdata_overflow strtod buf r1 r2 col, by norm_num [specCount]⟩
  intro hs0 hn0 hfit
  rw [readdata_insufficient_iff, countRows_eq nmax skip f buf hs0 hn0 hfit]

/-- Witness of C12: two rows, `skip = 2`, `nmax = 0`. -/
theorem readdata_no_data_witness :
    (0 : Int) ≤ 2 ∧ (0 : Int) ≤ 0 ∧ (2 : Int) + 0 < 2 ^ 31 ∧
    (readdata digitStrtod [] ["1 2\n".toList, "3 4\n".toList] [1] 2 0
        = Except.error Failure.insufficientData
      ↔ specCount (["1 2\n".toList, "3 4\n".toList] : List Row).length 2 0 ≤ 0) :=
  ⟨by decide, by decide, by decide,
    (readdata_no_data digitStrtod [] ["1 2\n".toList, "3 4\n".toList] [1] 2 0 [] []).1
      (by decide) (by decide) (by decide)⟩

theorem maxcolLoop_invalid :
    ∀ (col : List Int) (m0 c0 : Int), col.find? (fun c => decide (c ≤ 0)) = some c0 →
      maxcolLoop col m0 = Except.error (Failure.invalidColumn c0) := by
  intro col
  induction col with
  | nil =>
    intro m0 c0 h
    simp at h
  | cons c cs ih =>
    intro m0 c0 h
    simp only [maxcolLoop]
    by_cases hc : c ≤ 0
    · rw [List.find?_cons_of_pos _ (by simpa using hc)] at h
      simp only [Option.some.injEq] at h
      rw [if_pos hc, h]
    · rw [List.find?_cons_of_neg _ (by simpa using hc)] at h
      rw [if_neg hc]
      exact ih _ c0 h

/-- C13 (as the code has it). For an `int` `skip >= 0`, the selectors are
validated after the counting loop and its test for no data, and before any
row is converted: when `c0` is the first selector `<= 0` of the list,
`readdata` fails with the insufficient-data error if the counting loop
leaves no row to be read, and with the invalid-column error for `c0`
otherwise, whatever the rows hold. -/
theorem readdata_invalid_column (strtod : Row → Option (α × Row)) (buf : Row) (f : List Row)
    (col : List Int) (skip nmax : Int) (c0 : Int)
    (hs0 : 0 ≤ skip) (hs1 : skip < 2 ^ 31)
    (hc : col.find? (fun c => decide (c ≤ 0)) = some c0) :
    (countRows nmax skip f buf ≤ 0 →
      readdata strtod buf f col skip nmax = Except.error Failure.insufficientData) ∧
    (0 < countRows nmax skip f buf →
      readdata strtod buf f col skip nmax = Except.error (Failure.invalidColumn c0)) ∧
    (0 ≤ nmax → skip + nmax < 2 ^ 31 →
      countRows nmax skip f buf = specCount f.length skip nmax) ∧
    -2 ^ 31 < countRows nmax skip f buf := by
  refine ⟨(readdata_insufficient_iff strtod buf f col skip nmax).mpr, ?_,
    countRows_eq nmax skip f buf hs0, by rw [countRows]; omega⟩
  intro hpos
  have hpos2 : ¬ ((countLoop nmax skip f buf 0).1 : Int) - skip ≤ 0 := by
    rw [countRows] at hpos
    omega
  simp only [readdata]
  rw [if_neg hpos2, maxcolLoop_invalid col 0 c0 hc]

/-- Witness of C13: selectors `[2, 0]` on a source of two rows, `skip = 1`. -/
theorem readdata_invalid_column_witness :
    (0 : Int) ≤ 1 ∧ (1 : Int) < 2 ^ 31 ∧
    ([2, 0] : List Int).find? (fun c => decide (c ≤ 0)) = some 0 ∧
    0 < countRows 0 1 ["1 2\n".toList, "3 4\n".toList] [] ∧
    readdata digitStrtod [] ["1 2\n".toList, "3 4\n".toList] [2, 0] 1 0
      = Except.error (Failure.invalidColumn 0) :=
  ⟨by decide, by decide, rfl, by decide,
    (readdata_invalid_column digitStrtod [] ["1 2\n".toList, "3 4\n".toList] [2, 0] 1 0 0
      (by decide) (by decide) rfl).2.1 (by decide)⟩

/-- Counterexample to C13: on an empty source the selector 0 is not reported;
the load fails with the insufficient-data error of the counting loop. -/
theorem readdata_empty_source_invalid_column :
    readdata digitStrtod [] [] [0] 0 0 = Except.error Failure.insufficientData ∧
    readdata digitStrtod [] [] [0] 0 0 ≠ Except.error (Failure.invalidColumn 0) := by
  have h : readdata digitStrtod [] [] [0] 0 0 = Except.error Failure.insufficientData := rfl
  rw [h]
  exact ⟨rfl, by simp⟩

/-! ## `readdata`: malformed rows -/

/-- C14 (as the code has it). `errorcalc` with `autocorr = 0` stores nothing
through `tintp`, but the line that `main` prints for the column has four
values all the same: the column, the mean, the standard error, and the
indeterminate value `tint0` that the local variable `tint` held before the
call. -/
theorem main_prints_tint (rt : α → α) (col : Int) (d : List α) (tint0 : Dbl α) :
    (errorcalc rt d false).tintp = none ∧
    mainErrorColumn rt col d false tint0
      = (col, (errorcalc rt d false).avep, (errorcalc rt d false).sigp, tint0) := by
  have h : (errorcalc rt d false).tintp = none := by
    simp only [errorcalc]
    rfl
  refine ⟨h, ?_⟩
  simp only [mainErrorColumn, h]
  rfl

/-! ## `cmdl_args_remain` -/

theorem getStrings_from (args rest : List Row) (ac : Int) (hargs : ∀ j, args[1 + j]? = rest[j]?)
    (hne : ∀ r ∈ rest, r ≠ []) :
    ∀ c j, j + c ≤ rest.length →
      getStrings c
          { args := args, argp := 1 + j, ap := args[1 + j]?, narg := (rest.length : Int) - j,
            argcount := ac }
        = some ((rest.drop j).take c,
          { args := args, argp := 1 + (j + c), ap := args[1 + (j + c)]?,
            narg := (rest.length : Int) - ((j + c : Nat) : Int), argcount := ac }) := by
  intro c
  induction c with
  | zero =>
    intro j _
    simp [getStrings]
  | succ c ih =>
    intro j hj
    have hjlt : j < rest.length := by omega
    have hr : args[1 + j]? = some rest[j] := by
      rw [hargs j, List.getElem?_eq_getElem hjlt]
    have hrne : rest[j] ≠ [] := hne _ (List.getElem_mem hjlt)
    have hnarg : (rest.length : Int) - (j : Int) > 0 := by omega
    have hstep : cmdl_get_string
        { args := args, argp := 1 + j, ap := args[1 + j]?, narg := (rest.length : Int) - j,
          argcount := ac }
        = some (rest[j],
          { args := args, argp := 1 + (j + 1), ap := args[1 + (j + 1)]?,
            narg := (rest.length : Int) - ((j + 1 : Nat) : Int), argcount := ac }) := by
      simp only [cmdl_get_string, cmdl_find_next_string, hr, if_neg hrne, cmdl_do_next_item,
        if_pos hnarg]
      simp only [Option.some.injEq, Prod.mk.injEq, true_and, Cmdl.mk.injEq, and_true]
      refine ⟨by omega, ?_, by push_cast; ring⟩
      rw [show 1 + j + 1 = 1 + (j + 1) by omega]
    have hih := ih (j + 1) (by omega)
    simp only [getStrings, hstep, hih]
    rw [List.drop_eq_getElem_cons hjlt, List.take_succ_cons]
    simp only [Option.some.injEq, Prod.mk.injEq, true_and, Cmdl.mk.injEq, and_true]
    refine ⟨by omega, ?_, by push_cast; ring⟩
    rw [show j + 1 + c = j + (c + 1) by omega]

theorem cmdl_init_eq (prog : Row) (rest : List Row) (hk : 1 ≤ rest.length)
    (hmax : rest.length + 1 < MAX_ARG) :
    cmdl_init (prog :: rest) =
      { args := prog :: rest, argp := 1 + 0, ap := (prog :: rest)[1 + 0]?,
        narg := (rest.length : Int) - ((0 : Nat) : Int),
        argcount := ((prog :: rest).length : Int) } := by
  have ht : (prog :: rest).take MAX_ARG = prog :: rest :=
    List.take_of_length_le (by simp only [List.length_cons]; omega)
  have hgt : ((prog :: rest).length : Int) > 1 := by
    simp only [List.length_cons]
    omega
  simp only [cmdl_init, if_pos hgt, ht]
  simp only [Cmdl.mk.injEq, true_and, and_true, List.length_cons]
  push_cast
  ring

/-- What `cmdl_args_remain` returns after `c` of `k >= 1` non-empty arguments
have been taken by `cmdl_get_string`: `k - c + 1` as long as an argument is
left, and 0 afterwards. -/
theorem cmdl_args_remain_after (prog : Row) (rest : List Row) (c : Nat)
    (hne : ∀ r ∈ rest, r ≠ []) (hk : 1 ≤ rest.length) (hmax : rest.length + 1 < MAX_ARG)
    (hc : c ≤ rest.length) :
    ∃ s, getStrings c (cmdl_init (prog :: rest)) = some (rest.take c, s) ∧
      (cmdl_args_remain s).1 = if c < rest.length then (rest.length : Int) - (c : Int) + 1 else 0 := by
  have h := getStrings_from (prog :: rest) rest ((prog :: rest).length : Int)
    (fun j => by rw [Nat.add_comm, List.getElem?_cons_succ]) hne c 0 (by omega)
  rw [← cmdl_init_eq prog rest hk hmax, List.drop_zero, Nat.zero_add] at h
  refine ⟨_, h, ?_⟩
  by_cases hlt : c < rest.length
  · have hr : (prog :: rest)[1 + c]? = some rest[c] := by
      rw [Nat.add_comm, List.getElem?_cons_succ, List.getElem?_eq_getElem hlt]
    have hrne : rest[c] ≠ [] := hne _ (List.getElem_mem hlt)
    simp only [cmdl_args_remain, cmdl_find_next_string, hr, if_neg hrne, if_pos hlt]
  · have hr : (prog :: rest)[1 + c]? = none := by
      rw [Nat.add_comm, List.getElem?_cons_succ, List.getElem?_eq_none (by omega)]
    simp only [cmdl_args_remain, cmdl_find_next_string, hr, if_neg hlt]

/-- C16. For an argument vector with `k >= 1` non-empty arguments behind the
program name (`argc < MAX_ARG`) of which `c <= k` have been taken whole by
`cmdl_get_string`, `cmdl_args_remain` returns `k - c + 1` when `c < k` and 0
when `c = k`: one more than the number `k - c` of arguments remaining, as
long as one remains.  Right after `cmdl_init` on `["errors", "file"]` it
returns 2, and after `file` has been taken it returns 0. -/
theorem cmdl_args_remain_spec (prog : Row) (rest : List Row) (c : Nat) :
    ((∀ r ∈ rest, r ≠ []) → 1 ≤ rest.length → rest.length + 1 < MAX_ARG → c ≤ rest.length →
      ∃ s, getStrings c (cmdl_init (prog :: rest)) = some (rest.take c, s) ∧
        (cmdl_args_remain s).1
          = if c < rest.length then (rest.length : Int) - (c : Int) + 1 else 0) ∧
    (cmdl_args_remain (cmdl_init ["errors".toList, "file".toList])).1 = 2 ∧
    (∃ s, getStrings 1 (cmdl_init ["errors".toList, "file".toList]) = some (["file".toList], s) ∧
      (cmdl_args_remain s).1 = 0) :=
  ⟨fun hne hk hmax hc => cmdl_args_remain_after prog rest c hne hk hmax hc, by decide,
    ⟨_, rfl, by decide⟩⟩

/-- Witness of C16: one of the three arguments `a`, `b`, `c` has been taken. -/
theorem cmdl_args_remain_spec_witness :
    (∀ r ∈ (["a".toList, "b".toList, "c".toList] : List Row), r ≠ []) ∧
    1 ≤ (["a".toList, "b".toList, "c".toList] : List Row).length ∧
    (["a".toList, "b".toList, "c".toList] : List Row).length + 1 < MAX_ARG ∧
    1 ≤ (["a".toList, "b".toList, "c".toList] : List Row).length ∧
    ∃ s, getStrings 1 (cmdl_init ("errors".toList :: ["a".toList, "b".toList, "c".toList]))
        = some ((["a".toList, "b".toList, "c".toList] : List Row).take 1, s) ∧
      (cmdl_args_remain s).1
        = if 1 < (["a".toList, "b".toList, "c".toList] : List Row).length
          then ((["a".toList, "b".toList, "c".toList] : List Row).length : Int) - ((1 : Nat) : Int) + 1
          else 0 :=
  have hne : ∀ r ∈ (["a".toList, "b".toList, "c".toList] : List Row), r ≠ [] := by decide
  ⟨hne, by decide, by decide, by decide,
    (cmdl_args_remain_spec "errors".toList ["a".toList, "b".toList, "c".toList] 1).1
      hne (by decide) (by decide) (by decide)⟩

end Errors
